import Mathlib

/-!
Shallow embedding of the `slv` indexed ring-buffer store
(crates `slv-proto` and `slv-input`, files `proto/src/lib.rs`,
`input/src/index.rs`, `input/src/source.rs`), together with proofs about
its message buffer, secondary indices, field matcher and line decoding.

Modelling conventions:
* Rust `ArcStr` strings are modelled as their character sequences
  (`List Char`); the Rust bytewise ordering on UTF-8 strings coincides
  with the lexicographic ordering on code points, which is the
  lexicographic order on `List Char`.
* `usize` arithmetic (`MessageId`, lengths) is modelled as `Nat`;
  no overflow handling is modelled, matching the source which never
  wraps (ids grow by one per pushed line).
* Runtime panics (`assert!`, `assert_eq!`, `.expect(..)`) are modelled
  by an `Except Fault` result; a `.error` value is a panic.
* `VecDeque` is modelled as a `List` with `push_back` appending at the
  tail and `pop_front` removing the head.
* The registry `HashMap<IndexMethod, Arc<RwLock<Index>>>` is modelled
  as an association list; iteration order of a `HashMap` is
  unspecified in Rust, and none of the proved statements depend on the
  order in which distinct indices are visited.
-/

namespace Slv

/-- Field names and values (Rust `ArcStr`), as character sequences. -/
abbrev Str := List Char

/-- Rust enum `slv_proto::FieldCondition`. -/
inductive FieldCondition where
  | HasKey (key : Str)
  | KeyValue (key : Str) (value : Str)
deriving DecidableEq

/-- Rust method `FieldCondition::key`. -/
def FieldCondition.key : FieldCondition → Str
  | .HasKey k => k
  | .KeyValue k _ => k

/-- The Rust `derive(PartialOrd, Ord)` order on `FieldCondition`:
discriminant first (`HasKey` before `KeyValue`), then the fields
lexicographically.  Encoded as an injection into a lexicographic
product so the Mathlib order machinery applies. -/
def FieldCondition.toKey : FieldCondition → ℕ ×ₗ (Str ×ₗ Str)
  | .HasKey k => toLex (0, toLex (k, []))
  | .KeyValue k v => toLex (1, toLex (k, v))

theorem FieldCondition.toKey_injective : Function.Injective FieldCondition.toKey := by
  intro a b h
  cases a <;> cases b <;>
    simp only [toKey, toLex_inj, Prod.mk.injEq] at h <;> simp_all

instance : LinearOrder FieldCondition :=
  LinearOrder.lift' FieldCondition.toKey FieldCondition.toKey_injective

/-- Rust struct `slv_proto::IndexMethod` (the `Arc<[FieldCondition]>` is
modelled as the underlying list). -/
structure IndexMethod where
  conditions : List FieldCondition
deriving DecidableEq

/-- Rust constructor `IndexMethod::new`: `units.sort()` then wrap.
`Vec::sort` is a stable sort by `Ord`; because the derived order is
antisymmetric (comparing equal means structurally equal), every sorting
algorithm returns the same list, so insertion sort models it exactly. -/
def IndexMethod.new (units : List FieldCondition) : IndexMethod :=
  ⟨units.insertionSort (· ≤ ·)⟩

/-- Rust struct `slv_proto::JsonEntry` (a `Vec` of name/value pairs;
the single unnamed field `.0` is called `fields` here). -/
structure JsonEntry where
  fields : List (Str × Str)
deriving DecidableEq

/-- Rust enum `slv_proto::Entry`: a decoded JSON object or a raw line. -/
inductive Entry where
  | Json (message : JsonEntry)
  | Raw (bytes : List ℕ)
deriving DecidableEq

/-- Inner `loop` of `should_index` in `input/src/index.rs`, for one
condition `unit`, consuming the remaining `fields` slice.  The three
`cmp` outcomes map to the three branches below.  Note that the Rust
`loop` contains no `break` statement: its only exits are the `return
false` sites (fields exhausted, field name past the condition name, or
value mismatch), so after a field whose name compares `Equal` the loop
keeps consuming further fields against the same condition. -/
def conditionLoop (unit : FieldCondition) : List (Str × Str) → Bool
  | [] => false
  | (field_key, field_value) :: rest =>
    if field_key < unit.key then conditionLoop unit rest
    else if unit.key < field_key then false
    else
      match unit with
      | .HasKey _ => conditionLoop unit rest
      | .KeyValue _ value =>
          if field_value = value then conditionLoop unit rest else false

/-- Rust function `should_index` in `input/src/index.rs`.  The outer
`for unit in &*method.conditions` enters the inner `loop` on its first
iteration; since that loop never `break`s, control never reaches a
second condition nor the trailing `true` unless the condition list is
empty. -/
def should_index (method : IndexMethod) (message : JsonEntry) : Bool :=
  match method.conditions with
  | [] => true
  | unit :: _ => conditionLoop unit message.fields

/-- The inner loop always answers `false` once entered: every branch
either recurses on a shorter field list or returns `false`, and the
empty field list returns `false`. -/
theorem conditionLoop_eq_false (unit : FieldCondition) :
    ∀ fields : List (Str × Str), conditionLoop unit fields = false := by
  intro fields
  induction fields with
  | nil => rfl
  | cons p rest ih =>
      obtain ⟨fk, fv⟩ := p
      unfold conditionLoop
      split
      · exact ih
      · split
        · rfl
        · cases unit with
          | HasKey k => exact ih
          | KeyValue k v =>
              dsimp only
              split
              · exact ih
              · rfl

/-- The matcher as compiled accepts a message iff the method has no
conditions at all; the field list is irrelevant. -/
theorem should_index_eq_isEmpty (method : IndexMethod) (message : JsonEntry) :
    should_index method message = method.conditions.isEmpty := by
  unfold should_index
  cases h : method.conditions with
  | nil => rfl
  | cons unit rest => simp [conditionLoop_eq_false]

/-- Panic sites of the modelled code; producing a `.error` value models
the corresponding runtime panic in `input/src/index.rs`. -/
inductive Fault where
  /-- The entry assertion of `MessageBuffer::push`:
  `assert!(self.deque.len() <= self.bound)`. -/
  | lenExceedsBound
  /-- The `.expect("bound > 0")` on `pop_front` in `MessageBuffer::push`. -/
  | boundZero
  /-- The tail-order assertion `assert!(last < id)` in `Index::add`. -/
  | indexAddOrder
  /-- The assertion `assert!(front == id, "index contains obsolete message")`
  in `Index::remove`. -/
  | indexObsolete
  /-- The assertion `assert_eq!(index.get(0), Some(&id), "raw index
  inconsistency")` in `Store::remove_from_index`. -/
  | rawInconsistency
deriving DecidableEq

/-- Rust struct `MessageBuffer` in `input/src/index.rs`; the `VecDeque`
is a list whose head is the front. -/
structure MessageBuffer where
  start_index : ℕ
  bound : ℕ
  deque : List Entry
deriving DecidableEq

/-- Rust `MessageBuffer::new`. -/
def MessageBuffer.new (bound : ℕ) : MessageBuffer :=
  ⟨0, bound, []⟩

/-- Rust struct `PushResult` in `input/src/index.rs`. -/
structure PushResult where
  added : ℕ
  removed : Option (ℕ × Entry)
deriving DecidableEq

/-- Rust `MessageBuffer::push`.  Mirrors the source exactly: the entry
assertion, then eviction of the front when at capacity (incrementing
`start_index`), then `added = start_index + deque.len()` computed from
the already-updated fields, then `push_back`. -/
def MessageBuffer.push (b : MessageBuffer) (message : Entry) :
    Except Fault (PushResult × MessageBuffer) :=
  if b.deque.length ≤ b.bound then
    if b.deque.length = b.bound then
      match b.deque with
      | [] => .error .boundZero
      | old_message :: rest =>
          .ok (⟨b.start_index + 1 + rest.length, some (b.start_index, old_message)⟩,
               ⟨b.start_index + 1, b.bound, rest ++ [message]⟩)
    else
      .ok (⟨b.start_index + b.deque.length, none⟩,
           ⟨b.start_index, b.bound, b.deque ++ [message]⟩)
  else .error .lenExceedsBound

/-- Rust struct `Index` in `input/src/index.rs`. -/
structure Index where
  queue : List ℕ
deriving DecidableEq

/-- Rust `Index::add`: checks `assert!(last < id)` against the current
tail (when any), then `push_back(id)`. -/
def Index.add (i : Index) (id : ℕ) : Except Fault Index :=
  match i.queue.getLast? with
  | some last => if last < id then .ok ⟨i.queue ++ [id]⟩ else .error .indexAddOrder
  | none => .ok ⟨i.queue ++ [id]⟩

/-- Rust `Index::remove`: no-op when the queue is empty or its front is
strictly greater than `id`; otherwise asserts `front == id` and pops. -/
def Index.remove (i : Index) (id : ℕ) : Except Fault Index :=
  match i.queue with
  | [] => .ok i
  | front :: rest =>
      if id < front then .ok i
      else if front = id then .ok ⟨rest⟩
      else .error .indexObsolete

/-- Iteration of `MessageBuffer.push` over a list of messages,
collecting the per-push results; this is the "sequence of N pushes" of
the spec's testable properties, not a function of the source. -/
def MessageBuffer.pushMany (b : MessageBuffer) :
    List Entry → Except Fault (List PushResult × MessageBuffer)
  | [] => .ok ([], b)
  | message :: rest => do
      let (r, b₁) ← b.push message
      let (rs, b₂) ← b₁.pushMany rest
      .ok (r :: rs, b₂)

/-- Evaluation of a non-full push. -/
theorem MessageBuffer.push_eq_of_lt {b : MessageBuffer} (message : Entry)
    (h : b.deque.length < b.bound) :
    b.push message =
      .ok (⟨b.start_index + b.deque.length, none⟩,
           ⟨b.start_index, b.bound, b.deque ++ [message]⟩) := by
  unfold MessageBuffer.push
  rw [if_pos h.le, if_neg h.ne]

/-- Evaluation of a push at capacity (with positive bound): the front
entry is evicted with id `start_index`. -/
theorem MessageBuffer.push_eq_of_full {b : MessageBuffer} (message : Entry)
    (hfull : b.deque.length = b.bound) (hb : 0 < b.bound) :
    ∃ old rest, b.deque = old :: rest ∧
      b.push message =
        .ok (⟨b.start_index + b.deque.length, some (b.start_index, old)⟩,
             ⟨b.start_index + 1, b.bound, rest ++ [message]⟩) := by
  obtain ⟨si, bd, dq⟩ := b
  simp only at hfull hb ⊢
  cases dq with
  | nil => rw [List.length_nil] at hfull; omega
  | cons old rest =>
      refine ⟨old, rest, rfl, ?_⟩
      unfold MessageBuffer.push
      rw [if_pos (le_of_eq hfull), if_pos hfull]
      dsimp only
      have harith : si + 1 + rest.length = si + (old :: rest).length := by
        simp only [List.length_cons]
        omega
      rw [harith]

/-- Main induction for sequences of pushes: from any in-bounds buffer
with positive bound every push succeeds, and the final length, the id
window, the assigned ids and the evicted ids are as computed here. -/
theorem MessageBuffer.pushMany_ok :
    ∀ (msgs : List Entry) (b : MessageBuffer), 0 < b.bound →
      b.deque.length ≤ b.bound →
      ∃ rs b', b.pushMany msgs = .ok (rs, b') ∧
        b'.bound = b.bound ∧
        b'.deque.length = min (b.deque.length + msgs.length) b.bound ∧
        b'.start_index + b'.deque.length =
          b.start_index + b.deque.length + msgs.length ∧
        b.start_index ≤ b'.start_index ∧
        rs.map (·.added) =
          List.range' (b.start_index + b.deque.length) msgs.length ∧
        (rs.filterMap (·.removed)).map Prod.fst =
          List.range' b.start_index (b'.start_index - b.start_index) := by
  intro msgs
  induction msgs with
  | nil =>
      intro b hb hle
      exact ⟨[], b, rfl, rfl, by simp; omega, by simp, le_refl _, by simp, by simp⟩
  | cons m rest ih =>
      intro b hb hle
      by_cases hfull : b.deque.length = b.bound
      · obtain ⟨old, tl, hd, hpush⟩ := MessageBuffer.push_eq_of_full m hfull hb
        have htl : tl.length + 1 = b.deque.length := by rw [hd]; simp
        obtain ⟨rs', b', hrun, hbd, hlen, hsum, hmono, hadded, hevicted⟩ :=
          ih ⟨b.start_index + 1, b.bound, tl ++ [m]⟩ hb (by simp; omega)
        dsimp only at hbd hlen hsum hmono hadded hevicted
        rw [List.length_append, List.length_singleton] at hlen hsum hadded
        refine ⟨⟨b.start_index + b.deque.length, some (b.start_index, old)⟩ :: rs',
                b', ?_, hbd, by simp; omega, by simp; omega, by omega, ?_, ?_⟩
        · show (do
              let (r, b₁) ← b.push m
              let (rs, b₂) ← b₁.pushMany rest
              .ok (r :: rs, b₂)) = _
          rw [hpush]
          show (do
              let (rs, b₂) ← MessageBuffer.pushMany _ rest
              Except.ok (_ :: rs, b₂)) = _
          rw [hrun]
          rfl
        · rw [List.map_cons, hadded, List.length_cons, List.range'_succ]
          congr 2
          omega
        · rw [List.filterMap_cons_some
                (rfl : (⟨b.start_index + b.deque.length,
                  some (b.start_index, old)⟩ : PushResult).removed =
                    some (b.start_index, old)),
              List.map_cons, hevicted]
          have hshift : b'.start_index - b.start_index =
              (b'.start_index - (b.start_index + 1)) + 1 := by omega
          rw [hshift, List.range'_succ]
      · have hlt : b.deque.length < b.bound := lt_of_le_of_ne hle hfull
        have hpush := MessageBuffer.push_eq_of_lt m hlt
        obtain ⟨rs', b', hrun, hbd, hlen, hsum, hmono, hadded, hevicted⟩ :=
          ih ⟨b.start_index, b.bound, b.deque ++ [m]⟩ hb (by simp; omega)
        dsimp only at hbd hlen hsum hmono hadded hevicted
        rw [List.length_append, List.length_singleton] at hlen hsum hadded
        refine ⟨⟨b.start_index + b.deque.length, none⟩ :: rs',
                b', ?_, hbd, by simp; omega, by simp; omega, by omega, ?_, ?_⟩
        · show (do
              let (r, b₁) ← b.push m
              let (rs, b₂) ← b₁.pushMany rest
              .ok (r :: rs, b₂)) = _
          rw [hpush]
          show (do
              let (rs, b₂) ← MessageBuffer.pushMany _ rest
              Except.ok (_ :: rs, b₂)) = _
          rw [hrun]
          rfl
        · rw [List.map_cons, hadded, List.length_cons, List.range'_succ]
          rfl
        · rw [List.filterMap_cons_none
                (rfl : (⟨b.start_index + b.deque.length,
                  none⟩ : PushResult).removed = none),
              hevicted]

/-- C3: for every bound `B > 0` and every sequence of pushes into a
fresh `MessageBuffer`, every push succeeds and afterwards the buffer
holds exactly `min (N, B)` entries whose ids are exactly the contiguous
range `[max (0, N - B), N)` — in `Nat` subtraction, `start_index =
N - min N B` and `start_index + len = N` — and `len ≤ bound` holds.
Quantifying over all message lists covers every prefix, so the
invariant holds after every push. -/
theorem C3_bounded_window (B : ℕ) (hB : 0 < B) (msgs : List Entry) :
    ∃ rs b, (MessageBuffer.new B).pushMany msgs = .ok (rs, b) ∧
      b.bound = B ∧
      b.deque.length = min msgs.length B ∧
      b.deque.length ≤ b.bound ∧
      b.start_index = msgs.length - min msgs.length B ∧
      b.start_index + b.deque.length = msgs.length := by
  obtain ⟨rs, b, hrun, hbd, hlen, hsum, -, -, -⟩ :=
    MessageBuffer.pushMany_ok msgs (MessageBuffer.new B) hB
      (by simp [MessageBuffer.new])
  simp only [MessageBuffer.new, List.length_nil, Nat.zero_add, Nat.add_zero]
    at hbd hlen hsum
  refine ⟨rs, b, hrun, hbd, by omega, by omega, by omega, by omega⟩

/-- Closed instance of C3: bound 2, three pushes. -/
theorem C3_bounded_window_witness :
    0 < 2 ∧
    ∃ rs b, (MessageBuffer.new 2).pushMany [.Raw [], .Raw [1], .Raw [2]] =
        .ok (rs, b) ∧
      b.bound = 2 ∧
      b.deque.length = min 3 2 ∧
      b.deque.length ≤ b.bound ∧
      b.start_index = 3 - min 3 2 ∧
      b.start_index + b.deque.length = 3 :=
  ⟨by decide, C3_bounded_window 2 (by decide) [.Raw [], .Raw [1], .Raw [2]]⟩

/-- C4: a push assigns the next sequential id and evicts the single
oldest entry — returning its (id, entry) pair — exactly when the buffer
was at capacity; and from a fresh buffer with bound `B`, ids are
assigned `0, 1, 2, …` in push order, and pushing `B + 1` entries causes
exactly one eviction, of id `0`. -/
theorem C4_push_assigns_and_evicts :
    (∀ (b : MessageBuffer) (message : Entry), 0 < b.bound →
      b.deque.length ≤ b.bound →
      ∃ r b', b.push message = .ok (r, b') ∧
        r.added = b.start_index + b.deque.length ∧
        (b.deque.length = b.bound →
          ∃ old tl, b.deque = old :: tl ∧ r.removed = some (b.start_index, old)) ∧
        (b.deque.length < b.bound → r.removed = none) ∧
        (r.removed ≠ none ↔ b.deque.length = b.bound)) ∧
    (∀ (B : ℕ) (msgs : List Entry), 0 < B → msgs.length = B + 1 →
      ∃ rs b, (MessageBuffer.new B).pushMany msgs = .ok (rs, b) ∧
        rs.map (·.added) = List.range msgs.length ∧
        (rs.filterMap (·.removed)).map Prod.fst = [0]) := by
  constructor
  · intro b message hb hle
    by_cases hfull : b.deque.length = b.bound
    · obtain ⟨old, tl, hd, hpush⟩ := MessageBuffer.push_eq_of_full message hfull hb
      refine ⟨_, _, hpush, rfl, fun _ => ⟨old, tl, hd, rfl⟩, by omega, ?_⟩
      simp [hfull]
    · have hlt : b.deque.length < b.bound := lt_of_le_of_ne hle hfull
      refine ⟨_, _, MessageBuffer.push_eq_of_lt message hlt, rfl, by omega,
        fun _ => rfl, ?_⟩
      simp [hfull]
  · intro B msgs hB hlen
    obtain ⟨rs, b, hrun, hbd, hblen, hsum, -, hadded, hev⟩ :=
      MessageBuffer.pushMany_ok msgs (MessageBuffer.new B) hB
        (by simp [MessageBuffer.new])
    simp only [MessageBuffer.new, List.length_nil, Nat.zero_add, Nat.add_zero]
      at hbd hblen hsum hadded hev
    refine ⟨rs, b, hrun, ?_, ?_⟩
    · rw [hadded, List.range_eq_range']
    · rw [hev]
      have hstart : b.start_index - 0 = 1 := by omega
      rw [hstart]
      rfl

/-- Closed instance of C4: a full one-slot buffer evicts id 0 on the
second push; two pushes into a fresh bound-1 buffer assign ids 0, 1 and
evict exactly id 0. -/
theorem C4_push_assigns_and_evicts_witness :
    (∃ r b', (⟨0, 1, [.Raw []]⟩ : MessageBuffer).push (.Raw [7]) = .ok (r, b') ∧
      r.added = 0 + (⟨0, 1, [.Raw []]⟩ : MessageBuffer).deque.length ∧
      ((⟨0, 1, [.Raw []]⟩ : MessageBuffer).deque.length =
          (⟨0, 1, [.Raw []]⟩ : MessageBuffer).bound →
        ∃ old tl, (⟨0, 1, [.Raw []]⟩ : MessageBuffer).deque = old :: tl ∧
          r.removed = some (0, old)) ∧
      ((⟨0, 1, [.Raw []]⟩ : MessageBuffer).deque.length <
          (⟨0, 1, [.Raw []]⟩ : MessageBuffer).bound → r.removed = none) ∧
      (r.removed ≠ none ↔ (⟨0, 1, [.Raw []]⟩ : MessageBuffer).deque.length =
          (⟨0, 1, [.Raw []]⟩ : MessageBuffer).bound)) ∧
    (∃ rs b, (MessageBuffer.new 1).pushMany [.Raw [], .Raw [5]] = .ok (rs, b) ∧
      rs.map (·.added) = List.range 2 ∧
      (rs.filterMap (·.removed)).map Prod.fst = [0]) :=
  ⟨C4_push_assigns_and_evicts.1 ⟨0, 1, [.Raw []]⟩ (.Raw [7]) (by decide) (by decide),
   C4_push_assigns_and_evicts.2 1 [.Raw [], .Raw [5]] (by decide) (by decide)⟩

/-- Insertion into the sorted key-unique pair list backing a
`BTreeMap<ArcStr, ArcStr>`: keeps keys strictly ascending by inserting
at the ordered position, and replaces the stored value when the key is
already present — the behaviour of `BTreeMap::insert`, which serde
performs once per `key: value` read from a JSON object, so a duplicate
key keeps the value read last. -/
def btreeInsert (k v : Str) : List (Str × Str) → List (Str × Str)
  | [] => [(k, v)]
  | (k', v') :: rest =>
    if k < k' then (k, v) :: (k', v') :: rest
    else if k' < k then (k', v') :: btreeInsert k v rest
    else (k, v) :: rest

/-- The sorted pair list of the `BTreeMap` built by inserting `pairs`
in document order, then iterated ascending by `into_iter` in
`parse_entry`. -/
def btreeOfList (pairs : List (Str × Str)) : List (Str × Str) :=
  pairs.foldl (fun acc p => btreeInsert p.1 p.2 acc) []

/-- Rust `bytes.strip_suffix(b"\r\n").unwrap_or(bytes)` in
`parse_entry`: drops one trailing carriage-return/newline byte pair
when present. -/
def stripCRLF (bytes : List ℕ) : List ℕ :=
  match bytes.reverse with
  | 10 :: 13 :: rest => rest.reverse
  | _ => bytes

/-- Rust `parse_entry` in `input/src/source.rs`.  The call
`serde_json::from_slice::<BTreeMap<ArcStr, ArcStr>>(bytes)` is an
external crate; it is modelled by the parameter `json_object`, which
returns the object's key/value pairs in document order when the bytes
parse as an object of string keys and string values, and `none` on any
parse failure.  Collecting those pairs into the `BTreeMap` is
`btreeOfList`.  The source's `assert!` that the collected fields are
pairwise sorted is exactly the sortedness statement proved about
`btreeOfList` below, so it is not a separate failure path. -/
def parse_entry (json_object : List ℕ → Option (List (Str × Str)))
    (bytes : List ℕ) : Entry :=
  match json_object bytes with
  | some fields => .Json ⟨btreeOfList fields⟩
  | none => .Raw (stripCRLF bytes)

/-- A key occurs in `btreeInsert k v l` iff it is `k` or occurs in `l`. -/
theorem btreeInsert_mem_keys (k v : Str) :
    ∀ (l : List (Str × Str)) (k' : Str),
      k' ∈ (btreeInsert k v l).map Prod.fst ↔
        k' = k ∨ k' ∈ l.map Prod.fst := by
  intro l
  induction l with
  | nil => intro k'; simp [btreeInsert]
  | cons p rest ih =>
      intro k'
      obtain ⟨pk, pv⟩ := p
      unfold btreeInsert
      split
      · simp only [List.map_cons, List.mem_cons]
      · split
        · simp only [List.map_cons, List.mem_cons, ih]
          tauto
        · have heq : pk = k := le_antisymm (le_of_not_lt (by assumption))
            (le_of_not_lt (by assumption))
          simp only [List.map_cons, List.mem_cons, heq]
          tauto

/-- Insertion preserves strict sortedness of the keys. -/
theorem btreeInsert_sorted (k v : Str) :
    ∀ l : List (Str × Str),
      l.Pairwise (fun p q => p.1 < q.1) →
      (btreeInsert k v l).Pairwise (fun p q => p.1 < q.1) := by
  intro l
  induction l with
  | nil => intro _; simp [btreeInsert]
  | cons p rest ih =>
      intro h
      rw [List.pairwise_cons] at h
      obtain ⟨hp, hrest⟩ := h
      obtain ⟨pk, pv⟩ := p
      unfold btreeInsert
      split
      · rw [List.pairwise_cons]
        refine ⟨?_, List.pairwise_cons.mpr ⟨hp, hrest⟩⟩
        intro q hq
        rcases List.mem_cons.mp hq with hq | hq
        · rw [hq]; assumption
        · exact lt_trans (by assumption) (hp q hq)
      · split
        · rw [List.pairwise_cons]
          refine ⟨?_, ih hrest⟩
          intro q hq
          have hkeys : q.1 = k ∨ q.1 ∈ rest.map Prod.fst :=
            (btreeInsert_mem_keys k v rest q.1).mp
              (List.mem_map_of_mem Prod.fst hq)
          rcases hkeys with hq1 | hq1
          · rw [hq1]; assumption
          · obtain ⟨q', hq', hq'eq⟩ := List.mem_map.mp hq1
            rw [← hq'eq]
            exact hp q' hq'
        · have heq : pk = k := le_antisymm (le_of_not_lt (by assumption))
            (le_of_not_lt (by assumption))
          rw [List.pairwise_cons]
          refine ⟨?_, hrest⟩
          intro q hq
          have := hp q hq
          simpa [heq] using this

/-- Building the map from any pair list yields strictly ascending,
duplicate-free keys holding exactly the keys of the input. -/
theorem btreeOfList_sorted_keys (pairs : List (Str × Str)) :
    (btreeOfList pairs).Pairwise (fun p q => p.1 < q.1) ∧
    ∀ k, k ∈ (btreeOfList pairs).map Prod.fst ↔ k ∈ pairs.map Prod.fst := by
  have main : ∀ (ps : List (Str × Str)) (acc : List (Str × Str)),
      acc.Pairwise (fun p q => p.1 < q.1) →
      (ps.foldl (fun acc p => btreeInsert p.1 p.2 acc) acc).Pairwise
        (fun p q => p.1 < q.1) ∧
      ∀ k, k ∈ (ps.foldl (fun acc p => btreeInsert p.1 p.2 acc) acc).map Prod.fst ↔
        k ∈ acc.map Prod.fst ∨ k ∈ ps.map Prod.fst := by
    intro ps
    induction ps with
    | nil => intro acc hacc; exact ⟨hacc, by simp⟩
    | cons p rest ih =>
        intro acc hacc
        obtain ⟨hs, hm⟩ := ih (btreeInsert p.1 p.2 acc)
          (btreeInsert_sorted p.1 p.2 acc hacc)
        refine ⟨hs, ?_⟩
        intro k
        rw [List.foldl_cons, hm k, btreeInsert_mem_keys]
        simp only [List.map_cons, List.mem_cons]
        tauto
  obtain ⟨hs, hm⟩ := main pairs [] (by simp)
  exact ⟨hs, fun k => by simpa using hm k⟩

/-- C8: line decoding is total — for every byte sequence and every
outcome of the external JSON parse, `parse_entry` produces an entry.
On a successful object parse the entry is `Json` with field names
strictly ascending (so duplicate names are collapsed to one field) and
with exactly the input's key set; on a failed parse it is `Raw`
holding the input bytes with one trailing `\r\n` pair stripped. -/
theorem C8_parse_entry_total
    (json_object : List ℕ → Option (List (Str × Str))) (bytes : List ℕ) :
    (∀ fields, json_object bytes = some fields →
      parse_entry json_object bytes = .Json ⟨btreeOfList fields⟩ ∧
      (btreeOfList fields).Pairwise (fun p q => p.1 < q.1) ∧
      (∀ k, k ∈ (btreeOfList fields).map Prod.fst ↔ k ∈ fields.map Prod.fst)) ∧
    (json_object bytes = none →
      parse_entry json_object bytes = .Raw (stripCRLF bytes)) := by
  constructor
  · intro fields hparse
    refine ⟨?_, (btreeOfList_sorted_keys fields).1, (btreeOfList_sorted_keys fields).2⟩
    unfold parse_entry
    rw [hparse]
  · intro hparse
    unfold parse_entry
    rw [hparse]

/-- Closed instance of C8: a parse with a duplicated key `a` collapses
to one sorted field per name, and a failed parse keeps the raw bytes
minus the trailing carriage-return/newline. -/
theorem C8_parse_entry_total_witness :
    parse_entry
        (fun _ => some [("b".toList, "2".toList), ("a".toList, "1".toList),
          ("a".toList, "3".toList)]) [] =
      .Json ⟨btreeOfList [("b".toList, "2".toList), ("a".toList, "1".toList),
        ("a".toList, "3".toList)]⟩ ∧
    btreeOfList [("b".toList, "2".toList), ("a".toList, "1".toList),
        ("a".toList, "3".toList)] =
      [("a".toList, "3".toList), ("b".toList, "2".toList)] ∧
    parse_entry (fun _ => none) [110, 111, 13, 10] = .Raw [110, 111] :=
  ⟨((C8_parse_entry_total
      (fun _ => some [("b".toList, "2".toList), ("a".toList, "1".toList),
        ("a".toList, "3".toList)]) []).1 _ rfl).1,
   by decide,
   ((C8_parse_entry_total (fun _ => none) [110, 111, 13, 10]).2 rfl).trans
     (by decide)⟩

/-- C9: `IndexMethod::new` is canonicalizing — permuted condition lists
construct equal methods, and two constructed methods are equal exactly
when the sorted condition sequences are equal. -/
theorem C9_index_method_canonical (l₁ l₂ : List FieldCondition) :
    (l₁.Perm l₂ → IndexMethod.new l₁ = IndexMethod.new l₂) ∧
    (IndexMethod.new l₁ = IndexMethod.new l₂ ↔
      l₁.insertionSort (· ≤ ·) = l₂.insertionSort (· ≤ ·)) := by
  constructor
  · intro hperm
    unfold IndexMethod.new
    congr 1
    refine List.eq_of_perm_of_sorted
      (r := fun a b : FieldCondition => a ≤ b) ?_ ?_ ?_
    · exact (List.perm_insertionSort _ _).trans
        (hperm.trans (List.perm_insertionSort _ _).symm)
    · exact List.sorted_insertionSort _ _
    · exact List.sorted_insertionSort _ _
  · constructor
    · intro h
      exact congrArg IndexMethod.conditions h
    · intro h
      unfold IndexMethod.new
      rw [h]

/-- Closed instance of C9: swapping two conditions constructs the same
method, with the sorted condition list. -/
theorem C9_index_method_canonical_witness :
    IndexMethod.new [.KeyValue "b".toList "2".toList, .HasKey "a".toList] =
      IndexMethod.new [.HasKey "a".toList, .KeyValue "b".toList "2".toList] ∧
    IndexMethod.new [.KeyValue "b".toList "2".toList, .HasKey "a".toList] =
      ⟨[.HasKey "a".toList, .KeyValue "b".toList "2".toList]⟩ :=
  ⟨(C9_index_method_canonical _ _).1 (by decide), by decide⟩

/-- Rust struct `Options` in `input/src/index.rs` (clap `--buffer-size`;
a plain `usize` with no validator, so `0` parses successfully). -/
structure Options where
  buffer_size : ℕ

/-- Rust enum `IndexTarget` in `input/src/index.rs`.  The `Arc` handles
captured by the `Json` variant are identified by their methods, which
name the registry entries they alias. -/
inductive IndexTarget where
  | Raw
  | Json (matched : List IndexMethod)

/-- Rust struct `Store` in `input/src/index.rs`: the buffer, the raw
index (`VecDeque<MessageId>`) and the registry.  The `RwLock`s only
synchronize the sequential execution modelled here, so they carry no
state of their own. -/
structure Store where
  buffer : MessageBuffer
  raw_index : List ℕ
  indices : List (IndexMethod × Index)
deriving DecidableEq

/-- Rust `Store::new`: builds the buffer from `options.buffer_size` and
leaves the raw index and the registry empty (`Default::default()`).
Note there is no validation of `buffer_size` anywhere. -/
def Store.new (options : Options) : Store :=
  ⟨MessageBuffer.new options.buffer_size, [], []⟩

/-- Rust `Store::index_target`: raw entries target the raw index; JSON
entries target every registered index whose method passes
`should_index`. -/
def Store.index_target (s : Store) (message : Entry) : IndexTarget :=
  match message with
  | .Raw _ => .Raw
  | .Json message =>
      .Json ((s.indices.filter fun p => should_index p.1 message).map (·.1))

/-- Rust `Store::add_to_index`.  Pushing through the `Arc` handles in
`matched` updates exactly the registry entries whose method is in
`matched`. -/
def Store.add_to_index (s : Store) (id : ℕ) (target : IndexTarget) :
    Except Fault Store :=
  match target with
  | .Raw => .ok ⟨s.buffer, s.raw_index ++ [id], s.indices⟩
  | .Json matched => do
      let indices ← s.indices.mapM fun p =>
        if p.1 ∈ matched then do
          let i ← p.2.add id
          Except.ok (p.1, i)
        else Except.ok p
      Except.ok ⟨s.buffer, s.raw_index, indices⟩

/-- Rust `Store::remove_from_index`: recomputes the target of the
evicted message; the `Raw` arm asserts the raw front equals the evicted
id and pops it, the `Json` arm calls `Index::remove` on each matched
index. -/
def Store.remove_from_index (s : Store) (id : ℕ) (message : Entry) :
    Except Fault Store :=
  match s.index_target message with
  | .Raw =>
      match s.raw_index with
      | front :: rest =>
          if front = id then Except.ok ⟨s.buffer, rest, s.indices⟩
          else .error .rawInconsistency
      | [] => .error .rawInconsistency
  | .Json matched => do
      let indices ← s.indices.mapM fun p =>
        if p.1 ∈ matched then do
          let i ← p.2.remove id
          Except.ok (p.1, i)
        else Except.ok p
      Except.ok ⟨s.buffer, s.raw_index, indices⟩

/-- Rust `Store::push`: compute the new entry's target, push into the
buffer, add the new id to the target, then clean up after an eviction. -/
def Store.push (s : Store) (message : Entry) : Except Fault Store := do
  let target := s.index_target message
  let (push_result, buffer) ← s.buffer.push message
  let s₁ : Store := ⟨buffer, s.raw_index, s.indices⟩
  let s₂ ← s₁.add_to_index push_result.added target
  match push_result.removed with
  | none => Except.ok s₂
  | some (removed_id, removed_message) =>
      s₂.remove_from_index removed_id removed_message

/-- Modelled from the spec: registering a new index method.  No
registration operation appears in the sources under `src/` (only
`list_indices` reads the registry); spec §4.4 gives the inferred
contract — when the method is already registered keep the existing
index, otherwise insert a fresh empty Secondary Index. -/
def Store.register (s : Store) (method : IndexMethod) : Store :=
  if method ∈ s.indices.map (·.1) then s
  else ⟨s.buffer, s.raw_index, s.indices ++ [(method, ⟨[]⟩)]⟩

/-- One client-visible store operation: an ingestion push or an index
registration. -/
inductive Event where
  | push (message : Entry)
  | register (method : IndexMethod)

/-- Apply one event to the store. -/
def Store.step (s : Store) : Event → Except Fault Store
  | .push message => s.push message
  | .register method => Except.ok (s.register method)

/-- Run a store built from `options` through a sequence of events. -/
def Store.run (options : Options) (events : List Event) : Except Fault Store :=
  events.foldlM Store.step (Store.new options)

/-- The id is currently retained in the buffer window. -/
def Store.live (s : Store) (id : ℕ) : Prop :=
  s.buffer.start_index ≤ id ∧ id < s.buffer.start_index + s.buffer.deque.length

/-- The retained entry with the given id (the deque slot at offset
`id - start_index`). -/
def Store.entryAt (s : Store) (id : ℕ) : Option Entry :=
  s.buffer.deque[id - s.buffer.start_index]?

/-- Consistency invariant of every reachable store: positive bound,
in-bounds deque, raw index strictly sorted and holding exactly the ids
of live raw entries, and every secondary index strictly sorted and
holding only ids of live JSON entries accepted by its method's
matcher. -/
structure Inv (s : Store) : Prop where
  bound_pos : 0 < s.buffer.bound
  len_le : s.buffer.deque.length ≤ s.buffer.bound
  raw_sorted : s.raw_index.Pairwise (· < ·)
  raw_mem : ∀ id, id ∈ s.raw_index ↔
    (s.live id ∧ ∃ bytes, s.entryAt id = some (.Raw bytes))
  idx_sorted : ∀ p ∈ s.indices, p.2.queue.Pairwise (· < ·)
  idx_mem : ∀ p ∈ s.indices, ∀ id ∈ p.2.queue,
    s.live id ∧ ∃ je, s.entryAt id = some (.Json je) ∧ should_index p.1 je = true

/-- The effect of a successful `Index::add`. -/
theorem Index.add_eq_ok (i : Index) (id : ℕ)
    (h : ∀ x ∈ i.queue, x < id) : i.add id = .ok ⟨i.queue ++ [id]⟩ := by
  unfold Index.add
  cases hl : i.queue.getLast? with
  | none => rfl
  | some last =>
      have : last ∈ i.queue := List.mem_of_mem_getLast? hl
      dsimp only
      rw [if_pos (h last this)]

/-- The effect of a successful `Index::remove`: pop the front when it
is `id`, otherwise do nothing. -/
def Index.removeHead (i : Index) (id : ℕ) : Index :=
  if i.queue.head? = some id then ⟨i.queue.tail⟩ else i

/-- When every queued id is at least `id`, `Index::remove` succeeds and
acts as `removeHead`. -/
theorem Index.remove_eq_ok (i : Index) (id : ℕ)
    (h : ∀ x ∈ i.queue, id ≤ x) : i.remove id = .ok (i.removeHead id) := by
  unfold Index.remove Index.removeHead
  cases hq : i.queue with
  | nil => simp
  | cons front rest =>
      dsimp only
      have hfront : id ≤ front := by
        refine h front ?_
        rw [hq]; exact List.mem_cons_self front rest
      by_cases hlt : id < front
      · rw [if_pos hlt]
        have hne : ¬ ((front :: rest).head? = some id) := by
          simp only [List.head?_cons, Option.some.injEq]
          omega
        rw [if_neg hne]
      · have heq : front = id := by omega
        rw [if_neg hlt, if_pos heq]
        have hhd : (front :: rest).head? = some id := by
          simp only [List.head?_cons, heq]
        rw [if_pos hhd]
        rfl

/-- Successful `mapM` over the registry: when the per-index operation
succeeds uniformly (as `g`) on every matched entry, the traversal is a
plain map. -/
theorem mapM_registry_ok (matched : List IndexMethod)
    (op : Index → Except Fault Index) (g : Index → Index) :
    ∀ l : List (IndexMethod × Index),
      (∀ p ∈ l, p.1 ∈ matched → op p.2 = .ok (g p.2)) →
      (l.mapM fun p =>
        if p.1 ∈ matched then do
          let i ← op p.2
          Except.ok (p.1, i)
        else Except.ok p) =
      .ok (l.map fun p => if p.1 ∈ matched then (p.1, g p.2) else p) := by
  intro l
  induction l with
  | nil => intro _; rfl
  | cons p rest ih =>
      intro h
      rw [List.mapM_cons]
      have hrest := ih fun q hq => h q (List.mem_cons_of_mem p hq)
      by_cases hm : p.1 ∈ matched
      · have hop := h p (List.mem_cons_self p rest) hm
        simp only [if_pos hm, hop, List.map_cons, hrest]
        rfl
      · simp only [if_neg hm, List.map_cons, hrest]
        rfl

/-- Membership in the computed target is exactly the matcher verdict,
for entries of the registry itself. -/
theorem mem_matched_iff (indices : List (IndexMethod × Index))
    (jm : JsonEntry) (p : IndexMethod × Index) (hp : p ∈ indices) :
    p.1 ∈ (indices.filter fun q => should_index q.1 jm).map (·.1) ↔
      should_index p.1 jm = true := by
  constructor
  · intro hmem
    obtain ⟨q, hq, hq1⟩ := List.mem_map.mp hmem
    have := List.of_mem_filter hq
    rw [← hq1]
    exact this
  · intro htrue
    exact List.mem_map.mpr ⟨p, List.mem_filter.mpr ⟨hp, htrue⟩, rfl⟩

/-- Raw index after the add phase of a push. -/
def rawAfterAdd (raw : List ℕ) (message : Entry) (id : ℕ) : List ℕ :=
  match message with
  | .Raw _ => raw ++ [id]
  | .Json _ => raw

/-- Registry after the add phase of a push. -/
def indicesAfterAdd (indices : List (IndexMethod × Index)) (message : Entry)
    (id : ℕ) : List (IndexMethod × Index) :=
  match message with
  | .Raw _ => indices
  | .Json jm => indices.map fun p =>
      if should_index p.1 jm then (p.1, ⟨p.2.queue ++ [id]⟩) else p

/-- Raw index after the eviction-cleanup phase of a push. -/
def rawAfterRemove (raw : List ℕ) (evicted : Entry) : List ℕ :=
  match evicted with
  | .Raw _ => raw.tail
  | .Json _ => raw

/-- Registry after the eviction-cleanup phase of a push. -/
def indicesAfterRemove (indices : List (IndexMethod × Index))
    (evicted : Entry) (rid : ℕ) : List (IndexMethod × Index) :=
  match evicted with
  | .Raw _ => indices
  | .Json je => indices.map fun p =>
      if should_index p.1 je then (p.1, p.2.removeHead rid) else p

/-- Evaluation of the add phase. -/
theorem add_to_index_eq (s : Store) (message : Entry) (id : ℕ)
    (h : ∀ p ∈ s.indices, ∀ x ∈ p.2.queue, x < id) :
    s.add_to_index id (s.index_target message) =
      .ok ⟨s.buffer, rawAfterAdd s.raw_index message id,
           indicesAfterAdd s.indices message id⟩ := by
  cases message with
  | Raw bytes => rfl
  | Json jm =>
      show s.add_to_index id
          (.Json ((s.indices.filter fun p => should_index p.1 jm).map (·.1))) = _
      unfold Store.add_to_index
      dsimp only
      rw [mapM_registry_ok _ (·.add id) (fun i => ⟨i.queue ++ [id]⟩) s.indices
        (fun p hp _ => Index.add_eq_ok p.2 id (h p hp))]
      show Except.ok _ = _
      unfold rawAfterAdd indicesAfterAdd
      refine congrArg Except.ok (congrArg _ ?_)
      exact List.map_congr_left fun p hp => by
        simp only [mem_matched_iff s.indices jm p hp]

/-- Evaluation of the eviction-cleanup phase for an evicted JSON
entry. -/
theorem remove_from_index_json_eq (s : Store) (je : JsonEntry) (rid : ℕ)
    (h : ∀ p ∈ s.indices, should_index p.1 je = true →
      ∀ x ∈ p.2.queue, rid ≤ x) :
    s.remove_from_index rid (.Json je) =
      .ok ⟨s.buffer, s.raw_index,
           indicesAfterRemove s.indices (.Json je) rid⟩ := by
  unfold Store.remove_from_index Store.index_target
  dsimp only
  rw [mapM_registry_ok _ (·.remove rid) (·.removeHead rid) s.indices
    (fun p hp hm => Index.remove_eq_ok p.2 rid
      (h p hp ((mem_matched_iff s.indices je p hp).mp hm)))]
  show Except.ok _ = _
  unfold indicesAfterRemove
  refine congrArg Except.ok (congrArg _ ?_)
  exact List.map_congr_left fun p hp => by
    simp only [mem_matched_iff s.indices je p hp]

/-- Evaluation of the eviction-cleanup phase for an evicted raw entry:
the assertion compares the raw front with the evicted id. -/
theorem remove_from_index_raw_eq (s : Store) (bytes : List ℕ) (rid : ℕ)
    (h : s.raw_index.head? = some rid) :
    s.remove_from_index rid (.Raw bytes) =
      .ok ⟨s.buffer, s.raw_index.tail, s.indices⟩ := by
  unfold Store.remove_from_index Store.index_target
  dsimp only
  cases hq : s.raw_index with
  | nil => rw [hq] at h; exact absurd h (by simp)
  | cons front rest =>
      rw [hq] at h
      have hfront : front = rid := by
        simpa using h
      dsimp only
      rw [if_pos hfront]
      rfl

/-- In a strictly sorted list, a member that is a lower bound of all
members is the head. -/
theorem head_eq_of_sorted_min {l : List ℕ} (hs : l.Pairwise (· < ·))
    {a : ℕ} (ha : a ∈ l) (hmin : ∀ x ∈ l, a ≤ x) : l.head? = some a := by
  cases l with
  | nil => exact absurd ha (List.not_mem_nil a)
  | cons h t =>
      rcases List.mem_cons.mp ha with rfl | hat
      · rfl
      · have h1 : h < a := List.rel_of_pairwise_cons hs hat
        have h2 : a ≤ h := hmin h (List.mem_cons_self h t)
        omega

/-- The new id assigned by the buffer push inside `Store::push`. -/
def newId (s : Store) : ℕ :=
  s.buffer.start_index + s.buffer.deque.length

/-- Full evaluation of `Store::push` when the buffer is below
capacity: the buffer appends, the new id lands in its target, and
nothing is evicted. -/
theorem Store.push_not_full_eq (s : Store) (m : Entry) (hInv : Inv s)
    (hlt : s.buffer.deque.length < s.buffer.bound) :
    s.push m = .ok
      ⟨⟨s.buffer.start_index, s.buffer.bound, s.buffer.deque ++ [m]⟩,
       rawAfterAdd s.raw_index m (newId s),
       indicesAfterAdd s.indices m (newId s)⟩ := by
  have hq : ∀ p ∈ s.indices, ∀ x ∈ p.2.queue, x < newId s := by
    intro p hp x hx
    have := (hInv.idx_mem p hp x hx).1
    unfold Store.live at this
    unfold newId
    omega
  unfold Store.push
  rw [MessageBuffer.push_eq_of_lt m hlt]
  show (do
      let s₂ ← Store.add_to_index
        ⟨⟨s.buffer.start_index, s.buffer.bound, s.buffer.deque ++ [m]⟩,
          s.raw_index, s.indices⟩
        (s.buffer.start_index + s.buffer.deque.length) (s.index_target m)
      Except.ok s₂) = _
  have htgt : s.index_target m = Store.index_target
      ⟨⟨s.buffer.start_index, s.buffer.bound, s.buffer.deque ++ [m]⟩,
        s.raw_index, s.indices⟩ m := by
    cases m <;> rfl
  rw [htgt, add_to_index_eq
    ⟨⟨s.buffer.start_index, s.buffer.bound, s.buffer.deque ++ [m]⟩,
      s.raw_index, s.indices⟩ m (s.buffer.start_index + s.buffer.deque.length) hq]
  rfl

/-- Full evaluation of `Store::push` when the buffer is at capacity:
the front entry (id `start_index`) is evicted, the new id lands in its
target, and the evicted id is cleaned out of the evicted entry's
target. -/
theorem Store.push_full_eq (s : Store) (m : Entry) (hInv : Inv s)
    (hfull : s.buffer.deque.length = s.buffer.bound) :
    ∃ old tl, s.buffer.deque = old :: tl ∧
      s.push m = .ok
        ⟨⟨s.buffer.start_index + 1, s.buffer.bound, tl ++ [m]⟩,
         rawAfterRemove (rawAfterAdd s.raw_index m (newId s)) old,
         indicesAfterRemove (indicesAfterAdd s.indices m (newId s)) old
           s.buffer.start_index⟩ := by
  obtain ⟨old, tl, hd, hpush⟩ := MessageBuffer.push_eq_of_full m hfull hInv.bound_pos
  refine ⟨old, tl, hd, ?_⟩
  have hq : ∀ p ∈ s.indices, ∀ x ∈ p.2.queue, x < newId s := by
    intro p hp x hx
    have := (hInv.idx_mem p hp x hx).1
    unfold Store.live at this
    unfold newId
    omega
  unfold Store.push
  rw [hpush]
  show (do
      let s₂ ← Store.add_to_index
        ⟨⟨s.buffer.start_index + 1, s.buffer.bound, tl ++ [m]⟩,
          s.raw_index, s.indices⟩
        (s.buffer.start_index + s.buffer.deque.length) (s.index_target m)
      s₂.remove_from_index s.buffer.start_index old) = _
  have htgt : s.index_target m = Store.index_target
      ⟨⟨s.buffer.start_index + 1, s.buffer.bound, tl ++ [m]⟩,
        s.raw_index, s.indices⟩ m := by
    cases m <;> rfl
  rw [htgt, add_to_index_eq
    ⟨⟨s.buffer.start_index + 1, s.buffer.bound, tl ++ [m]⟩,
      s.raw_index, s.indices⟩ m (s.buffer.start_index + s.buffer.deque.length) hq]
  show Store.remove_from_index
      ⟨⟨s.buffer.start_index + 1, s.buffer.bound, tl ++ [m]⟩,
        rawAfterAdd s.raw_index m (newId s),
        indicesAfterAdd s.indices m (newId s)⟩
      s.buffer.start_index old = _
  cases old with
  | Raw bo =>
      rw [remove_from_index_raw_eq _ bo _ ?_]
      · rfl
      · show (rawAfterAdd s.raw_index m (newId s)).head? =
          some s.buffer.start_index
        have hmem : s.buffer.start_index ∈ s.raw_index := by
          rw [hInv.raw_mem]
          constructor
          · unfold Store.live
            have := hInv.bound_pos
            omega
          · refine ⟨bo, ?_⟩
            unfold Store.entryAt
            rw [Nat.sub_self, hd]
            simp
        have hmin : ∀ x ∈ s.raw_index, s.buffer.start_index ≤ x := by
          intro x hx
          exact ((hInv.raw_mem x).mp hx).1.1
        have hhead := head_eq_of_sorted_min hInv.raw_sorted hmem hmin
        cases m with
        | Raw bm =>
            show (s.raw_index ++ [newId s]).head? = some s.buffer.start_index
            rw [List.head?_append]
            rw [hhead]
            rfl
        | Json jm => exact hhead
  | Json je =>
      rw [remove_from_index_json_eq _ je _ ?_]
      · rfl
      intro p hp hsi x hx
      unfold indicesAfterAdd at hp
      cases m with
      | Raw bm =>
          have := (hInv.idx_mem p hp x hx).1
          exact this.1
      | Json jm =>
          obtain ⟨p₀, hp₀, hp₀eq⟩ := List.mem_map.mp hp
          by_cases hmatch : should_index p₀.1 jm = true
          · rw [if_pos hmatch] at hp₀eq
            rw [← hp₀eq] at hx
            simp only at hx
            rcases List.mem_append.mp hx with hx | hx
            · exact ((hInv.idx_mem p₀ hp₀ x hx).1).1
            · have : x = newId s := by simpa using hx
              rw [this]
              unfold newId
              omega
          · rw [if_neg hmatch] at hp₀eq
            rw [← hp₀eq] at hx
            exact ((hInv.idx_mem p₀ hp₀ x hx).1).1

/-- Lookup in an extended list, left part. -/
theorem getElem?_append_left_of_lt {α : Type} (l extra : List α) (i : ℕ)
    (h : i < l.length) : (l ++ extra)[i]? = l[i]? := by
  rw [List.getElem?_append, if_pos h]

/-- Registration preserves the invariant: the fresh index starts
empty. -/
theorem Inv.register_preserved {s : Store} (hInv : Inv s)
    (method : IndexMethod) : Inv (s.register method) := by
  unfold Store.register
  by_cases hmem : method ∈ s.indices.map (·.1)
  · rw [if_pos hmem]; exact hInv
  · rw [if_neg hmem]
    refine ⟨hInv.bound_pos, hInv.len_le, hInv.raw_sorted, hInv.raw_mem, ?_, ?_⟩
    · intro p hp
      rcases List.mem_append.mp hp with hp | hp
      · exact hInv.idx_sorted p hp
      · have : p = (method, ⟨[]⟩) := by simpa using hp
        rw [this]
        exact List.Pairwise.nil
    · intro p hp id hid
      rcases List.mem_append.mp hp with hp | hp
      · exact hInv.idx_mem p hp id hid
      · have : p = (method, ⟨[]⟩) := by simpa using hp
        rw [this] at hid
        exact absurd hid (List.not_mem_nil id)

/-- The invariant survives a push below capacity. -/
theorem Inv.push_not_full {s : Store} (hInv : Inv s) (m : Entry)
    (hlt : s.buffer.deque.length < s.buffer.bound) :
    Inv ⟨⟨s.buffer.start_index, s.buffer.bound, s.buffer.deque ++ [m]⟩,
         rawAfterAdd s.raw_index m (newId s),
         indicesAfterAdd s.indices m (newId s)⟩ := by
  have hraw_lt : ∀ x ∈ s.raw_index, x < newId s := by
    intro x hx
    have := ((hInv.raw_mem x).mp hx).1
    unfold Store.live at this
    unfold newId
    omega
  have hidx_lt : ∀ p ∈ s.indices, ∀ x ∈ p.2.queue, x < newId s := by
    intro p hp x hx
    have := (hInv.idx_mem p hp x hx).1
    unfold Store.live at this
    unfold newId
    omega
  have hentry_keep : ∀ id, s.live id →
      (s.buffer.deque ++ [m])[id - s.buffer.start_index]? =
        s.buffer.deque[id - s.buffer.start_index]? := by
    intro id hl
    unfold Store.live at hl
    exact getElem?_append_left_of_lt _ _ _ (by omega)
  have hentry_new : (s.buffer.deque ++ [m])[newId s - s.buffer.start_index]? =
      some m := by
    unfold newId
    rw [Nat.add_sub_cancel_left]
    exact List.getElem?_concat_length _ _
  constructor
  case bound_pos => exact hInv.bound_pos
  case len_le => simp only [List.length_append, List.length_singleton]; omega
  case raw_sorted =>
      cases m with
      | Json jm => exact hInv.raw_sorted
      | Raw bm =>
          show (s.raw_index ++ [newId s]).Pairwise (· < ·)
          rw [List.pairwise_append]
          exact ⟨hInv.raw_sorted, List.pairwise_singleton _ _,
            fun x hx y hy => by
              have : y = newId s := by simpa using hy
              rw [this]; exact hraw_lt x hx⟩
  case raw_mem =>
      intro id
      show id ∈ rawAfterAdd s.raw_index m (newId s) ↔ _
      unfold Store.live Store.entryAt
      simp only [List.length_append, List.length_singleton]
      cases m with
      | Raw bm =>
          show id ∈ s.raw_index ++ [newId s] ↔ _
          rw [List.mem_append]
          constructor
          · intro h
            rcases h with h | h
            · obtain ⟨hlive, bytes, hb⟩ := (hInv.raw_mem id).mp h
              have hlive' := hlive
              unfold Store.live at hlive'
              refine ⟨by omega, bytes, ?_⟩
              rw [hentry_keep id hlive]
              exact hb
            · have hid : id = newId s := by simpa using h
              rw [hid]
              refine ⟨by unfold newId; omega, bm, ?_⟩
              rw [hentry_new]
          · rintro ⟨hlive, bytes, hb⟩
            by_cases hid : id = newId s
            · right; simpa using hid
            · left
              have hlive0 : s.live id := by
                unfold Store.live
                unfold newId at hid
                omega
              rw [hentry_keep id hlive0] at hb
              exact (hInv.raw_mem id).mpr ⟨hlive0, bytes, hb⟩
      | Json jm =>
          show id ∈ s.raw_index ↔ _
          constructor
          · intro h
            obtain ⟨hlive, bytes, hb⟩ := (hInv.raw_mem id).mp h
            have hlive' := hlive
            unfold Store.live at hlive'
            refine ⟨by omega, bytes, ?_⟩
            rw [hentry_keep id hlive]
            exact hb
          · rintro ⟨hlive, bytes, hb⟩
            by_cases hid : id = newId s
            · rw [hid, hentry_new] at hb
              exact absurd hb (by simp)
            · have hlive0 : s.live id := by
                unfold Store.live
                unfold newId at hid
                omega
              rw [hentry_keep id hlive0] at hb
              exact (hInv.raw_mem id).mpr ⟨hlive0, bytes, hb⟩
  case idx_sorted =>
      intro p hp
      cases m with
      | Raw bm => exact hInv.idx_sorted p hp
      | Json jm =>
          obtain ⟨p₀, hp₀, hp₀eq⟩ := List.mem_map.mp hp
          by_cases hmatch : should_index p₀.1 jm = true
          · rw [if_pos hmatch] at hp₀eq
            rw [← hp₀eq]
            show (p₀.2.queue ++ [newId s]).Pairwise (· < ·)
            rw [List.pairwise_append]
            exact ⟨hInv.idx_sorted p₀ hp₀, List.pairwise_singleton _ _,
              fun x hx y hy => by
                have : y = newId s := by simpa using hy
                rw [this]; exact hidx_lt p₀ hp₀ x hx⟩
          · rw [if_neg hmatch] at hp₀eq
            rw [← hp₀eq]
            exact hInv.idx_sorted p₀ hp₀
  case idx_mem =>
      intro p hp id hid
      unfold Store.live Store.entryAt
      simp only [List.length_append, List.length_singleton]
      cases m with
      | Raw bm =>
          obtain ⟨hlive, je, hj, hsi⟩ := hInv.idx_mem p hp id hid
          have hlive' := hlive
          unfold Store.live at hlive'
          refine ⟨by omega, je, ?_, hsi⟩
          rw [hentry_keep id hlive]
          exact hj
      | Json jm =>
          obtain ⟨p₀, hp₀, hp₀eq⟩ := List.mem_map.mp hp
          by_cases hmatch : should_index p₀.1 jm = true
          · rw [if_pos hmatch] at hp₀eq
            rw [← hp₀eq] at hid ⊢
            simp only at hid ⊢
            rcases List.mem_append.mp hid with hid | hid
            · obtain ⟨hlive, je, hj, hsi⟩ := hInv.idx_mem p₀ hp₀ id hid
              have hlive' := hlive
              unfold Store.live at hlive'
              refine ⟨by omega, je, ?_, hsi⟩
              rw [hentry_keep id hlive]
              exact hj
            · have hidn : id = newId s := by simpa using hid
              rw [hidn]
              refine ⟨by unfold newId; omega, jm, ?_, hmatch⟩
              rw [hentry_new]
          · rw [if_neg hmatch] at hp₀eq
            rw [← hp₀eq] at hid ⊢
            obtain ⟨hlive, je, hj, hsi⟩ := hInv.idx_mem p₀ hp₀ id hid
            have hlive' := hlive
            unfold Store.live at hlive'
            refine ⟨by omega, je, ?_, hsi⟩
            rw [hentry_keep id hlive]
            exact hj

/-- Sortedness of every queue after the add phase. -/
theorem afterAdd_sorted {indices : List (IndexMethod × Index)} {m : Entry}
    {nid : ℕ} (hsorted : ∀ p ∈ indices, p.2.queue.Pairwise (· < ·))
    (hlt : ∀ p ∈ indices, ∀ x ∈ p.2.queue, x < nid) :
    ∀ q ∈ indicesAfterAdd indices m nid, q.2.queue.Pairwise (· < ·) := by
  intro q hq
  cases m with
  | Raw bm => exact hsorted q hq
  | Json jm =>
      obtain ⟨p₀, hp₀, hp₀eq⟩ := List.mem_map.mp hq
      by_cases hmatch : should_index p₀.1 jm = true
      · rw [if_pos hmatch] at hp₀eq
        rw [← hp₀eq]
        show (p₀.2.queue ++ [nid]).Pairwise (· < ·)
        rw [List.pairwise_append]
        exact ⟨hsorted p₀ hp₀, List.pairwise_singleton _ _,
          fun x hx y hy => by
            have : y = nid := by simpa using hy
            rw [this]; exact hlt p₀ hp₀ x hx⟩
      · rw [if_neg hmatch] at hp₀eq
        rw [← hp₀eq]
        exact hsorted p₀ hp₀

/-- Origin of every queue member after the add phase. -/
theorem afterAdd_mem {indices : List (IndexMethod × Index)} {m : Entry}
    {nid : ℕ} {q : IndexMethod × Index} (hq : q ∈ indicesAfterAdd indices m nid)
    {id : ℕ} (hid : id ∈ q.2.queue) :
    ∃ p₀ ∈ indices, q.1 = p₀.1 ∧
      (id ∈ p₀.2.queue ∨
        ∃ jm, m = .Json jm ∧ should_index p₀.1 jm = true ∧ id = nid) := by
  cases m with
  | Raw bm => exact ⟨q, hq, rfl, Or.inl hid⟩
  | Json jm =>
      obtain ⟨p₀, hp₀, hp₀eq⟩ := List.mem_map.mp hq
      by_cases hmatch : should_index p₀.1 jm = true
      · rw [if_pos hmatch] at hp₀eq
        refine ⟨p₀, hp₀, by rw [← hp₀eq], ?_⟩
        rw [← hp₀eq] at hid
        rcases List.mem_append.mp hid with hid | hid
        · exact Or.inl hid
        · exact Or.inr ⟨jm, rfl, hmatch, by simpa using hid⟩
      · rw [if_neg hmatch] at hp₀eq
        rw [← hp₀eq] at hid ⊢
        exact ⟨p₀, hp₀, rfl, Or.inl hid⟩

/-- Shape of every registry entry after the eviction-cleanup phase. -/
theorem afterRemove_mem {indices : List (IndexMethod × Index)} {old : Entry}
    {rid : ℕ} {q : IndexMethod × Index}
    (hq : q ∈ indicesAfterRemove indices old rid) :
    ∃ p₁ ∈ indices, q.1 = p₁.1 ∧
      ((q.2 = p₁.2 ∧ ∀ je, old = .Json je → should_index p₁.1 je = false) ∨
        ∃ je, old = .Json je ∧ should_index p₁.1 je = true ∧
          q.2 = p₁.2.removeHead rid) := by
  cases old with
  | Raw bo => exact ⟨q, hq, rfl, Or.inl ⟨rfl, fun je h => nomatch h⟩⟩
  | Json je =>
      obtain ⟨p₁, hp₁, hp₁eq⟩ := List.mem_map.mp hq
      by_cases hmatch : should_index p₁.1 je = true
      · rw [if_pos hmatch] at hp₁eq
        exact ⟨p₁, hp₁, by rw [← hp₁eq], Or.inr ⟨je, rfl, hmatch, by rw [← hp₁eq]⟩⟩
      · rw [if_neg hmatch] at hp₁eq
        rw [← hp₁eq]
        exact ⟨p₁, hp₁, rfl, Or.inl ⟨rfl,
          fun je' h => by cases h; simpa using hmatch⟩⟩

/-- Queue sortedness survives `removeHead`. -/
theorem removeHead_sorted {i : Index} {rid : ℕ}
    (h : i.queue.Pairwise (· < ·)) :
    (i.removeHead rid).queue.Pairwise (· < ·) := by
  unfold Index.removeHead
  split
  · exact List.Pairwise.sublist (List.tail_sublist i.queue) h
  · exact h

/-- Members of `removeHead` come from the original queue. -/
theorem mem_removeHead {i : Index} {rid id : ℕ}
    (h : id ∈ (i.removeHead rid).queue) : id ∈ i.queue := by
  unfold Index.removeHead at h
  split at h
  · exact List.mem_of_mem_tail h
  · exact h

/-- After `removeHead rid` on a sorted queue whose members are all at
least `rid`, the id `rid` is gone. -/
theorem not_mem_removeHead {i : Index} {rid : ℕ}
    (hsorted : i.queue.Pairwise (· < ·))
    (hge : ∀ x ∈ i.queue, rid ≤ x) : rid ∉ (i.removeHead rid).queue := by
  unfold Index.removeHead
  split
  case isTrue hhd =>
      intro hmem
      cases hq : i.queue with
      | nil => rw [hq] at hmem; exact absurd hmem (by simp)
      | cons front rest =>
          rw [hq] at hhd hmem hsorted
          have hfront : front = rid := by simpa using hhd
          simp only [List.tail_cons] at hmem
          have := List.rel_of_pairwise_cons hsorted hmem
          omega
  case isFalse hhd =>
      intro hmem
      exact hhd (head_eq_of_sorted_min hsorted hmem
        (fun x hx => hge x hx))

/-- When the buffer front is a raw entry, the raw index's front is the
buffer's oldest id. -/
theorem raw_head_of_front_raw {s : Store} (hInv : Inv s) {bo : List ℕ}
    {tl : List Entry} (hd : s.buffer.deque = .Raw bo :: tl) :
    s.raw_index.head? = some s.buffer.start_index := by
  have hmem : s.buffer.start_index ∈ s.raw_index := by
    rw [hInv.raw_mem]
    constructor
    · unfold Store.live
      rw [hd]
      simp
    · refine ⟨bo, ?_⟩
      unfold Store.entryAt
      rw [Nat.sub_self, hd]
      simp
  exact head_eq_of_sorted_min hInv.raw_sorted hmem
    (fun x hx => ((hInv.raw_mem x).mp hx).1.1)

/-- The invariant survives a push at capacity, across the eviction of
the oldest entry. -/
theorem Inv.push_full {s : Store} (hInv : Inv s) (m old : Entry)
    (tl : List Entry) (hd : s.buffer.deque = old :: tl)
    (hfull : s.buffer.deque.length = s.buffer.bound) :
    Inv ⟨⟨s.buffer.start_index + 1, s.buffer.bound, tl ++ [m]⟩,
         rawAfterRemove (rawAfterAdd s.raw_index m (newId s)) old,
         indicesAfterRemove (indicesAfterAdd s.indices m (newId s)) old
           s.buffer.start_index⟩ := by
  have hlen : s.buffer.deque.length = tl.length + 1 := by rw [hd]; simp
  have hnid : newId s = s.buffer.start_index + tl.length + 1 := by
    unfold newId; omega
  have hraw_lt : ∀ x ∈ s.raw_index, x < newId s := by
    intro x hx
    have := ((hInv.raw_mem x).mp hx).1
    unfold Store.live at this
    omega
  have hraw_ge : ∀ x ∈ s.raw_index, s.buffer.start_index ≤ x :=
    fun x hx => ((hInv.raw_mem x).mp hx).1.1
  have hidx_lt : ∀ p ∈ s.indices, ∀ x ∈ p.2.queue, x < newId s := by
    intro p hp x hx
    have := (hInv.idx_mem p hp x hx).1
    unfold Store.live at this
    omega
  have hidx_ge : ∀ p ∈ s.indices, ∀ x ∈ p.2.queue, s.buffer.start_index ≤ x :=
    fun p hp x hx => (hInv.idx_mem p hp x hx).1.1
  have hentry_start : s.entryAt s.buffer.start_index = some old := by
    unfold Store.entryAt
    rw [Nat.sub_self, hd]
    simp
  have hentry_keep : ∀ id, s.live id → id ≠ s.buffer.start_index →
      (tl ++ [m])[id - (s.buffer.start_index + 1)]? =
        s.buffer.deque[id - s.buffer.start_index]? := by
    intro id hl hne
    unfold Store.live at hl
    have h1 : id - s.buffer.start_index =
        (id - (s.buffer.start_index + 1)) + 1 := by omega
    rw [hd, h1, List.getElem?_cons_succ]
    exact getElem?_append_left_of_lt tl [m] _ (by omega)
  have hentry_new : (tl ++ [m])[newId s - (s.buffer.start_index + 1)]? =
      some m := by
    have h1 : newId s - (s.buffer.start_index + 1) = tl.length := by omega
    rw [h1]
    exact List.getElem?_concat_length _ _
  have hsorted₁ := afterAdd_sorted (m := m) hInv.idx_sorted hidx_lt
  have hge₁ : ∀ q ∈ indicesAfterAdd s.indices m (newId s),
      ∀ x ∈ q.2.queue, s.buffer.start_index ≤ x := by
    intro q hq x hx
    obtain ⟨p₀, hp₀, -, horigin⟩ := afterAdd_mem hq hx
    rcases horigin with hx0 | ⟨jm, -, -, hxnid⟩
    · exact hidx_ge p₀ hp₀ x hx0
    · omega
  constructor
  case bound_pos => exact hInv.bound_pos
  case len_le =>
      show (tl ++ [m]).length ≤ s.buffer.bound
      simp only [List.length_append, List.length_singleton]
      omega
  case idx_sorted =>
      intro q hq
      obtain ⟨p₁, hp₁, -, hcase⟩ := afterRemove_mem hq
      rcases hcase with ⟨hq2, -⟩ | ⟨je, -, -, hq2⟩
      · rw [hq2]; exact hsorted₁ p₁ hp₁
      · rw [hq2]; exact removeHead_sorted (hsorted₁ p₁ hp₁)
  case idx_mem =>
      intro q hq id hid
      obtain ⟨p₁, hp₁, hq1, hcase⟩ := afterRemove_mem hq
      have hmain : id ∈ p₁.2.queue ∧ id ≠ s.buffer.start_index := by
        rcases hcase with ⟨hq2, hnm⟩ | ⟨je, holdje, hmatch, hq2⟩
        · rw [hq2] at hid
          refine ⟨hid, ?_⟩
          intro hids
          obtain ⟨p₀, hp₀, hq0, horigin⟩ := afterAdd_mem hp₁ hid
          rcases horigin with hid0 | ⟨jm, -, -, hidnid⟩
          · obtain ⟨hlive, je', hj', hsi'⟩ := hInv.idx_mem p₀ hp₀ id hid0
            rw [hids] at hj'
            rw [hentry_start] at hj'
            cases old with
            | Raw bo => exact absurd hj' (by simp)
            | Json je'' =>
                have : je'' = je' := by simpa using hj'
                have hfalse := hnm je'' rfl
                rw [hq0, this] at hfalse
                rw [hsi'] at hfalse
                exact absurd hfalse (by simp)
          · omega
        · rw [hq2] at hid
          refine ⟨mem_removeHead hid, ?_⟩
          intro hids
          rw [hids] at hid
          exact not_mem_removeHead (hsorted₁ p₁ hp₁) (hge₁ p₁ hp₁) hid
      obtain ⟨hid1, hne⟩ := hmain
      obtain ⟨p₀, hp₀, hq0, horigin⟩ := afterAdd_mem hp₁ hid1
      unfold Store.live Store.entryAt
      simp only [List.length_append, List.length_singleton]
      rcases horigin with hid0 | ⟨jm, hmjson, hmatch, hidnid⟩
      · obtain ⟨hlive, je', hj', hsi'⟩ := hInv.idx_mem p₀ hp₀ id hid0
        have hlive' := hlive
        unfold Store.live at hlive'
        refine ⟨⟨by omega, by omega⟩, je', ?_, ?_⟩
        · show (tl ++ [m])[id - (s.buffer.start_index + 1)]? = _
          rw [hentry_keep id hlive hne]
          exact hj'
        · rw [hq1, hq0]
          exact hsi'
      · rw [hidnid]
        refine ⟨⟨by omega, by omega⟩, jm, ?_, ?_⟩
        · show (tl ++ [m])[newId s - (s.buffer.start_index + 1)]? = _
          rw [hentry_new, hmjson]
        · rw [hq1, hq0]
          exact hmatch
  case raw_sorted =>
      cases old with
      | Raw bo =>
          have hhead := raw_head_of_front_raw hInv hd
          cases hq : s.raw_index with
          | nil => rw [hq] at hhead; exact absurd hhead (by simp)
          | cons f rawt =>
              rw [hq] at hhead
              have hf : f = s.buffer.start_index := by simpa using hhead
              have hsorted_t : rawt.Pairwise (· < ·) := by
                have := hInv.raw_sorted
                rw [hq] at this
                exact (List.pairwise_cons.mp this).2
              cases m with
              | Raw bm =>
                  show ((rawt ++ [newId s])).Pairwise (· < ·)
                  rw [List.pairwise_append]
                  refine ⟨hsorted_t, List.pairwise_singleton _ _, ?_⟩
                  intro x hx y hy
                  have hy' : y = newId s := by simpa using hy
                  rw [hy']
                  refine hraw_lt x ?_
                  rw [hq]
                  exact List.mem_cons_of_mem f hx
              | Json jm =>
                  show rawt.Pairwise (· < ·)
                  exact hsorted_t
      | Json je =>
          cases m with
          | Raw bm =>
              show (s.raw_index ++ [newId s]).Pairwise (· < ·)
              rw [List.pairwise_append]
              exact ⟨hInv.raw_sorted, List.pairwise_singleton _ _,
                fun x hx y hy => by
                  have : y = newId s := by simpa using hy
                  rw [this]; exact hraw_lt x hx⟩
          | Json jm =>
              show s.raw_index.Pairwise (· < ·)
              exact hInv.raw_sorted
  case raw_mem =>
      have hlive_shape : ∀ id,
          (Store.live ⟨⟨s.buffer.start_index + 1, s.buffer.bound, tl ++ [m]⟩,
            rawAfterRemove (rawAfterAdd s.raw_index m (newId s)) old,
            indicesAfterRemove (indicesAfterAdd s.indices m (newId s)) old
              s.buffer.start_index⟩ id) ↔
          (s.buffer.start_index + 1 ≤ id ∧ id ≤ newId s) := by
        intro id
        unfold Store.live
        simp only [List.length_append, List.length_singleton]
        omega
      have hentry_shape : ∀ id bytes,
          s.buffer.start_index + 1 ≤ id → id ≤ newId s →
          ((tl ++ [m])[id - (s.buffer.start_index + 1)]? =
              some (.Raw bytes) ↔
            (id = newId s ∧ m = .Raw bytes) ∨
            (id ≠ newId s ∧ s.entryAt id = some (.Raw bytes))) := by
        intro id bytes h1 h2
        by_cases hidn : id = newId s
        · rw [hidn, hentry_new]
          constructor
          · intro h
            exact Or.inl ⟨rfl, by
              have := h
              exact (Option.some.injEq _ _ ▸ this : m = Entry.Raw bytes).symm ▸ rfl⟩
          · rintro (⟨-, hm⟩ | ⟨hne, -⟩)
            · rw [hm]
            · exact absurd rfl hne
        · have hlive0 : s.live id := by
            unfold Store.live
            omega
          rw [hentry_keep id hlive0 (by omega)]
          unfold Store.entryAt
          constructor
          · intro h; exact Or.inr ⟨hidn, h⟩
          · rintro (⟨he, -⟩ | ⟨-, h⟩)
            · exact absurd he hidn
            · exact h
      intro id
      rw [hlive_shape id]
      have hmem_raw : ∀ idx, idx ∈ s.raw_index ↔
          (s.live idx ∧ ∃ bytes, s.entryAt idx = some (.Raw bytes)) :=
        hInv.raw_mem
      cases old with
      | Raw bo =>
          have hhead := raw_head_of_front_raw hInv hd
          cases hq : s.raw_index with
          | nil => rw [hq] at hhead; exact absurd hhead (by simp)
          | cons f rawt =>
              rw [hq] at hhead
              have hf : f = s.buffer.start_index := by simpa using hhead
              have hmem_rawt : ∀ idx, idx ∈ rawt ↔
                  (idx ∈ s.raw_index ∧ idx ≠ s.buffer.start_index) := by
                intro idx
                constructor
                · intro hidx
                  constructor
                  · rw [hq]; exact List.mem_cons_of_mem f hidx
                  · have := hInv.raw_sorted
                    rw [hq] at this
                    have := List.rel_of_pairwise_cons this hidx
                    omega
                · rintro ⟨hidx, hne⟩
                  rw [hq] at hidx
                  rcases List.mem_cons.mp hidx with h | h
                  · exact absurd (h.trans hf) hne
                  · exact h
              cases m with
              | Raw bm =>
                  show id ∈ rawt ++ [newId s] ↔ _
                  rw [List.mem_append]
                  constructor
                  · intro h
                    rcases h with h | h
                    · obtain ⟨hidx, hne⟩ := (hmem_rawt id).mp h
                      obtain ⟨hlive, bytes, hb⟩ := (hmem_raw id).mp hidx
                      have hlive' := hlive
                      unfold Store.live at hlive'
                      refine ⟨⟨by omega, by omega⟩, bytes, ?_⟩
                      show (tl ++ [Entry.Raw bm])[id - (s.buffer.start_index + 1)]? = _
                      rw [hentry_keep id hlive hne]
                      exact hb
                    · have hidn : id = newId s := by simpa using h
                      rw [hidn]
                      refine ⟨⟨by omega, le_refl _⟩, bm, ?_⟩
                      show (tl ++ [Entry.Raw bm])[newId s - (s.buffer.start_index + 1)]? = _
                      rw [hentry_new]
                  · rintro ⟨⟨h1, h2⟩, bytes, hb⟩
                    replace hb : (tl ++ [Entry.Raw bm])[id -
                      (s.buffer.start_index + 1)]? = some (Entry.Raw bytes) := hb
                    rw [hentry_shape id bytes h1 h2] at hb
                    rcases hb with ⟨hidn, hm⟩ | ⟨hidn, hb⟩
                    · right
                      simpa using hidn
                    · left
                      rw [hmem_rawt id]
                      refine ⟨(hmem_raw id).mpr ⟨?_, bytes, hb⟩, by omega⟩
                      unfold Store.live
                      omega
              | Json jm =>
                  show id ∈ rawt ↔ _
                  constructor
                  · intro h
                    obtain ⟨hidx, hne⟩ := (hmem_rawt id).mp h
                    obtain ⟨hlive, bytes, hb⟩ := (hmem_raw id).mp hidx
                    have hlive' := hlive
                    unfold Store.live at hlive'
                    refine ⟨⟨by omega, by omega⟩, bytes, ?_⟩
                    show (tl ++ [Entry.Json jm])[id - (s.buffer.start_index + 1)]? = _
                    rw [hentry_keep id hlive hne]
                    exact hb
                  · rintro ⟨⟨h1, h2⟩, bytes, hb⟩
                    replace hb : (tl ++ [Entry.Json jm])[id -
                      (s.buffer.start_index + 1)]? = some (Entry.Raw bytes) := hb
                    rw [hentry_shape id bytes h1 h2] at hb
                    rcases hb with ⟨-, hm⟩ | ⟨hidn, hb⟩
                    · exact absurd hm (by simp)
                    · rw [hmem_rawt id]
                      refine ⟨(hmem_raw id).mpr ⟨?_, bytes, hb⟩, by omega⟩
                      unfold Store.live
                      omega
      | Json je =>
          have hstart_notin : s.buffer.start_index ∉ s.raw_index := by
            intro h
            obtain ⟨-, bytes, hb⟩ := (hmem_raw _).mp h
            rw [hentry_start] at hb
            exact absurd hb (by simp)
          cases m with
          | Raw bm =>
              show id ∈ s.raw_index ++ [newId s] ↔ _
              rw [List.mem_append]
              constructor
              · intro h
                rcases h with h | h
                · obtain ⟨hlive, bytes, hb⟩ := (hmem_raw id).mp h
                  have hne : id ≠ s.buffer.start_index := by
                    intro hids; rw [hids] at h; exact hstart_notin h
                  have hlive' := hlive
                  unfold Store.live at hlive'
                  refine ⟨⟨by omega, by omega⟩, bytes, ?_⟩
                  show (tl ++ [Entry.Raw bm])[id - (s.buffer.start_index + 1)]? = _
                  rw [hentry_keep id hlive hne]
                  exact hb
                · have hidn : id = newId s := by simpa using h
                  rw [hidn]
                  refine ⟨⟨by omega, le_refl _⟩, bm, ?_⟩
                  show (tl ++ [Entry.Raw bm])[newId s - (s.buffer.start_index + 1)]? = _
                  rw [hentry_new]
              · rintro ⟨⟨h1, h2⟩, bytes, hb⟩
                replace hb : (tl ++ [Entry.Raw bm])[id -
                  (s.buffer.start_index + 1)]? = some (Entry.Raw bytes) := hb
                rw [hentry_shape id bytes h1 h2] at hb
                rcases hb with ⟨hidn, hm⟩ | ⟨hidn, hb⟩
                · right; simpa using hidn
                · left
                  refine (hmem_raw id).mpr ⟨?_, bytes, hb⟩
                  unfold Store.live
                  omega
          | Json jm =>
              show id ∈ s.raw_index ↔ _
              constructor
              · intro h
                obtain ⟨hlive, bytes, hb⟩ := (hmem_raw id).mp h
                have hne : id ≠ s.buffer.start_index := by
                  intro hids; rw [hids] at h; exact hstart_notin h
                have hlive' := hlive
                unfold Store.live at hlive'
                refine ⟨⟨by omega, by omega⟩, bytes, ?_⟩
                show (tl ++ [Entry.Json jm])[id - (s.buffer.start_index + 1)]? = _
                rw [hentry_keep id hlive hne]
                exact hb
              · rintro ⟨⟨h1, h2⟩, bytes, hb⟩
                replace hb : (tl ++ [Entry.Json jm])[id -
                  (s.buffer.start_index + 1)]? = some (Entry.Raw bytes) := hb
                rw [hentry_shape id bytes h1 h2] at hb
                rcases hb with ⟨-, hm⟩ | ⟨hidn, hb⟩
                · exact absurd hm (by simp)
                · refine (hmem_raw id).mpr ⟨?_, bytes, hb⟩
                  unfold Store.live
                  omega

/-- The fresh store satisfies the invariant whenever the configured
bound is positive. -/
theorem Inv.new_store (options : Options) (h : 0 < options.buffer_size) :
    Inv (Store.new options) := by
  constructor
  case bound_pos => exact h
  case len_le => exact Nat.zero_le _
  case raw_sorted => exact List.Pairwise.nil
  case raw_mem =>
      intro id
      constructor
      · intro hmem
        exact absurd hmem (List.not_mem_nil id)
      · rintro ⟨⟨h1, h2⟩, -⟩
        exact absurd (lt_of_le_of_lt h1 h2) (by simp [Store.new, MessageBuffer.new])
  case idx_sorted =>
      intro p hp
      exact absurd hp (List.not_mem_nil p)
  case idx_mem =>
      intro p hp
      exact absurd hp (List.not_mem_nil p)

/-- Every push from an invariant state succeeds and preserves the
invariant. -/
theorem Inv.push_preserved {s : Store} (hInv : Inv s) (m : Entry) :
    ∃ s', s.push m = .ok s' ∧ Inv s' := by
  by_cases hfull : s.buffer.deque.length = s.buffer.bound
  · obtain ⟨old, tl, hd, heq⟩ := Store.push_full_eq s m hInv hfull
    exact ⟨_, heq, hInv.push_full m old tl hd hfull⟩
  · have hlt := lt_of_le_of_ne hInv.len_le hfull
    exact ⟨_, Store.push_not_full_eq s m hInv hlt, hInv.push_not_full m hlt⟩

/-- Every event from an invariant state succeeds and preserves the
invariant. -/
theorem Inv.step_preserved {s : Store} (hInv : Inv s) (ev : Event) :
    ∃ s', s.step ev = .ok s' ∧ Inv s' := by
  cases ev with
  | push m => exact hInv.push_preserved m
  | register method => exact ⟨_, rfl, hInv.register_preserved method⟩

/-- Master reachability theorem: with a positive bound, every event
sequence executes with no assertion failure, and the resulting store
satisfies the invariant. -/
theorem run_ok (options : Options) (h : 0 < options.buffer_size)
    (events : List Event) :
    ∃ s, Store.run options events = .ok s ∧ Inv s := by
  suffices main : ∀ (evs : List Event) (s₀ : Store), Inv s₀ →
      ∃ s, evs.foldlM Store.step s₀ = .ok s ∧ Inv s by
    exact main events (Store.new options) (Inv.new_store options h)
  intro evs
  induction evs with
  | nil => intro s₀ h₀; exact ⟨s₀, rfl, h₀⟩
  | cons ev rest ih =>
      intro s₀ h₀
      obtain ⟨s₁, hs₁, h₁⟩ := h₀.step_preserved ev
      obtain ⟨s₂, hs₂, h₂⟩ := ih s₁ h₁
      refine ⟨s₂, ?_, h₂⟩
      rw [List.foldlM_cons, hs₁]
      exact hs₂

/-- The invariant holds of every state a run reaches. -/
theorem inv_of_run {options : Options} {events : List Event} {s : Store}
    (h : 0 < options.buffer_size) (hrun : Store.run options events = .ok s) :
    Inv s := by
  obtain ⟨s', hrun', hInv⟩ := run_ok options h events
  rw [hrun] at hrun'
  cases hrun'
  exact hInv

/-- C2: the bound-zero configuration is not rejected at construction.
`Store::new` accepts `buffer_size = 0` and returns a store; the very
first push then panics at the `expect("bound > 0")` inside
`MessageBuffer::push`.  With a positive bound, no push (or any other
event) ever fails. -/
theorem C2_zero_bound_not_rejected :
    Store.new ⟨0⟩ = ⟨⟨0, 0, []⟩, [], []⟩ ∧
    (Store.new ⟨0⟩).push (.Raw []) = .error .boundZero ∧
    (∀ options events, 0 < options.buffer_size →
      ∃ s, Store.run options events = .ok s) := by
  refine ⟨rfl, rfl, ?_⟩
  intro options events h
  obtain ⟨s, hs, -⟩ := run_ok options h events
  exact ⟨s, hs⟩

/-- Closed instance of C2's positive part: a bound-1 store runs one
push without failing. -/
theorem C2_zero_bound_not_rejected_witness :
    ∃ s, Store.run ⟨1⟩ [.push (.Raw [])] = .ok s :=
  C2_zero_bound_not_rejected.2.2 ⟨1⟩ [.push (.Raw [])] (by decide)

/-- C6: `Index::add` appends exactly when the id is strictly greater
than the current tail and panics otherwise, and in every reachable
store every secondary index queue is strictly increasing. -/
theorem C6_index_monotone :
    (∀ (i : Index) (id : ℕ),
      (i.queue.getLast? = none → i.add id = .ok ⟨i.queue ++ [id]⟩) ∧
      (∀ last, i.queue.getLast? = some last →
        (last < id → i.add id = .ok ⟨i.queue ++ [id]⟩) ∧
        (¬ last < id → i.add id = .error .indexAddOrder))) ∧
    (∀ options events s, 0 < options.buffer_size →
      Store.run options events = .ok s →
      ∀ p ∈ s.indices, p.2.queue.Pairwise (· < ·)) := by
  constructor
  · intro i id
    constructor
    · intro h
      unfold Index.add
      rw [h]
    · intro last h
      unfold Index.add
      rw [h]
      exact ⟨fun hlt => by dsimp only; rw [if_pos hlt],
        fun hge => by dsimp only; rw [if_neg hge]⟩
  · intro options events s h hrun
    exact (inv_of_run h hrun).idx_sorted

/-- Closed instance of C6: a tail-respecting add appends, an
out-of-order add is the fatal fault, and the queue reached by
registering an index and pushing a matching entry is strictly
increasing. -/
theorem C6_index_monotone_witness :
    (⟨[1]⟩ : Index).add 2 = .ok ⟨[1, 2]⟩ ∧
    (⟨[1]⟩ : Index).add 1 = .error .indexAddOrder ∧
    List.Pairwise (· < ·) (⟨[0]⟩ : Index).queue :=
  ⟨by
    have h := ((C6_index_monotone.1 ⟨[1]⟩ 2).2 1 rfl).1 (by decide)
    simpa using h,
   by
    have h := ((C6_index_monotone.1 ⟨[1]⟩ 1).2 1 rfl).2 (by decide)
    simpa using h,
   C6_index_monotone.2 ⟨1⟩ [.register ⟨[]⟩, .push (.Json ⟨[]⟩)]
     ⟨⟨0, 1, [.Json ⟨[]⟩]⟩, [], [(⟨[]⟩, ⟨[0]⟩)]⟩ (by decide) rfl
     (⟨[]⟩, ⟨[0]⟩) (by simp)⟩

/-- C7: `Index::remove` pops the head iff the head equals the id; an
empty queue or a strictly greater head is a no-op; a strictly smaller
head is the fatal internal-consistency fault. -/
theorem C7_index_remove (i : Index) (id : ℕ) :
    (i.queue = [] → i.remove id = .ok i) ∧
    (∀ front rest, i.queue = front :: rest →
      (id < front → i.remove id = .ok i) ∧
      (front = id → i.remove id = .ok ⟨rest⟩) ∧
      (front < id → i.remove id = .error .indexObsolete)) := by
  constructor
  · intro h
    unfold Index.remove
    rw [h]
  · intro front rest h
    have hrw : i.remove id = (if id < front then Except.ok i
        else if front = id then Except.ok ⟨rest⟩
        else .error .indexObsolete) := by
      unfold Index.remove
      rw [h]
    refine ⟨fun hlt => ?_, fun heq => ?_, fun hgt => ?_⟩
    · rw [hrw, if_pos hlt]
    · rw [hrw, if_neg (by omega), if_pos heq]
    · rw [hrw, if_neg (by omega), if_neg (by omega)]

/-- Closed instance of C7: on queue `[5]`, removing 4 is a no-op,
removing 5 pops, removing 6 is the fatal fault; the empty queue is a
no-op. -/
theorem C7_index_remove_witness :
    (⟨[]⟩ : Index).remove 3 = .ok ⟨[]⟩ ∧
    (⟨[5]⟩ : Index).remove 4 = .ok ⟨[5]⟩ ∧
    (⟨[5]⟩ : Index).remove 5 = .ok ⟨[]⟩ ∧
    (⟨[5]⟩ : Index).remove 6 = .error .indexObsolete :=
  ⟨(C7_index_remove ⟨[]⟩ 3).1 rfl,
   ((C7_index_remove ⟨[5]⟩ 4).2 5 [] rfl).1 (by decide),
   ((C7_index_remove ⟨[5]⟩ 5).2 5 [] rfl).2.1 rfl,
   ((C7_index_remove ⟨[5]⟩ 6).2 5 [] rfl).2.2 (by decide)⟩

/-- C10: under the construction contract (positive bound), no run ever
fails — in particular the `assert_eq` in the `Raw` arm of
`remove_from_index` never fires — and whenever the entry about to be
evicted (the buffer front) is raw, the raw index's head equals its id,
which is exactly the assertion's check. -/
theorem C10_raw_assert_unreachable :
    (∀ options events, 0 < options.buffer_size →
      ∃ s, Store.run options events = .ok s ∧ Inv s) ∧
    (∀ options events s, 0 < options.buffer_size →
      Store.run options events = .ok s →
      ∀ bytes tl, s.buffer.deque = .Raw bytes :: tl →
        s.raw_index.head? = some s.buffer.start_index) := by
  refine ⟨fun options events h => run_ok options h events, ?_⟩
  intro options events s h hrun bytes tl hd
  exact raw_head_of_front_raw (inv_of_run h hrun) hd

/-- Closed instance of C10: after one raw push into a bound-1 store the
raw index's head is the id of the raw entry at the buffer front, and a
second push (which evicts it) still succeeds. -/
theorem C10_raw_assert_unreachable_witness :
    (∃ s, Store.run ⟨1⟩ [.push (.Raw [7]), .push (.Raw [8])] = .ok s ∧ Inv s) ∧
    ((⟨⟨0, 1, [.Raw [7]]⟩, [0], []⟩ : Store).raw_index.head? = some 0) :=
  ⟨C10_raw_assert_unreachable.1 ⟨1⟩ [.push (.Raw [7]), .push (.Raw [8])] (by decide),
   C10_raw_assert_unreachable.2 ⟨1⟩ [.push (.Raw [7])]
     ⟨⟨0, 1, [.Raw [7]]⟩, [0], []⟩ (by decide) rfl [7] [] rfl⟩

/-- The queue of one registry entry as it stands after the add phase of
a push of `m` whose new id is `nid`. -/
def addQueue (m : Entry) (p : IndexMethod × Index) (nid : ℕ) : List ℕ :=
  match m with
  | .Raw _ => p.2.queue
  | .Json jm => if should_index p.1 jm then p.2.queue ++ [nid] else p.2.queue

/-- C5: when a push into a reachable full store evicts the oldest
entry, the evicted id is removed from every secondary index that
contains it at that moment (it was necessarily at the head), and every
index that does not contain it — including one registered after the
evicted entry was pushed, even if its conditions match it — is left
unchanged by the eviction (its queue is exactly what the add phase
left). -/
theorem C5_eviction_cleanup (options : Options) (events : List Event)
    (s : Store) (m : Entry) (s' : Store)
    (hb : 0 < options.buffer_size)
    (hrun : Store.run options events = .ok s)
    (hfull : s.buffer.deque.length = s.buffer.bound)
    (hpush : s.push m = .ok s') :
    s'.indices.length = s.indices.length ∧
    ∀ k (hk : k < s.indices.length) (hk' : k < s'.indices.length),
      (s'.indices.get ⟨k, hk'⟩).1 = (s.indices.get ⟨k, hk⟩).1 ∧
      s.buffer.start_index ∉ (s'.indices.get ⟨k, hk'⟩).2.queue ∧
      (s.buffer.start_index ∈ (s.indices.get ⟨k, hk⟩).2.queue →
        (addQueue m (s.indices.get ⟨k, hk⟩) (newId s)).head? =
          some s.buffer.start_index ∧
        (s'.indices.get ⟨k, hk'⟩).2.queue =
          (addQueue m (s.indices.get ⟨k, hk⟩) (newId s)).tail) ∧
      (s.buffer.start_index ∉ (s.indices.get ⟨k, hk⟩).2.queue →
        (s'.indices.get ⟨k, hk'⟩).2.queue =
          addQueue m (s.indices.get ⟨k, hk⟩) (newId s)) := by
  have hInv := inv_of_run hb hrun
  obtain ⟨old, tl, hd, heq⟩ := Store.push_full_eq s m hInv hfull
  rw [heq] at hpush
  cases hpush
  have hlenAA : (indicesAfterAdd s.indices m (newId s)).length =
      s.indices.length := by
    cases m <;> simp [indicesAfterAdd]
  have hlenAR : (indicesAfterRemove (indicesAfterAdd s.indices m (newId s))
      old s.buffer.start_index).length =
      (indicesAfterAdd s.indices m (newId s)).length := by
    cases old <;> simp [indicesAfterRemove]
  constructor
  · show (indicesAfterRemove (indicesAfterAdd s.indices m (newId s)) old
      s.buffer.start_index).length = s.indices.length
    rw [hlenAR, hlenAA]
  intro k hk hk'
  have hkA : k < (indicesAfterAdd s.indices m (newId s)).length := by omega
  have hp : s.indices.get ⟨k, hk⟩ ∈ s.indices := List.get_mem _ _ hk
  have hstart_lt_nid : s.buffer.start_index < newId s := by
    unfold newId
    have := hInv.bound_pos
    omega
  have hge : ∀ x ∈ (s.indices.get ⟨k, hk⟩).2.queue,
      s.buffer.start_index ≤ x :=
    fun x hx => (hInv.idx_mem _ hp x hx).1.1
  have hlt : ∀ x ∈ (s.indices.get ⟨k, hk⟩).2.queue, x < newId s := by
    intro x hx
    have := (hInv.idx_mem _ hp x hx).1
    unfold Store.live at this
    unfold newId
    omega
  have hsorted := hInv.idx_sorted _ hp
  have hAA : (indicesAfterAdd s.indices m (newId s)).get ⟨k, hkA⟩ =
      ((s.indices.get ⟨k, hk⟩).1,
        ⟨addQueue m (s.indices.get ⟨k, hk⟩) (newId s)⟩) := by
    cases m with
    | Raw bm => rfl
    | Json jm =>
        show (List.map _ s.indices).get ⟨k, _⟩ = _
        rw [List.get_map]
        by_cases hmatch : should_index (s.indices.get ⟨k, hk⟩).1 jm = true
        · show (if should_index (s.indices.get ⟨k, hk⟩).1 jm then _ else _) = _
          rw [if_pos hmatch]
          show _ = ((s.indices.get ⟨k, hk⟩).1,
            ⟨if should_index (s.indices.get ⟨k, hk⟩).1 jm
              then (s.indices.get ⟨k, hk⟩).2.queue ++ [newId s]
              else (s.indices.get ⟨k, hk⟩).2.queue⟩)
          rw [if_pos hmatch]
        · show (if should_index (s.indices.get ⟨k, hk⟩).1 jm then _ else _) = _
          rw [if_neg hmatch]
          show _ = ((s.indices.get ⟨k, hk⟩).1,
            ⟨if should_index (s.indices.get ⟨k, hk⟩).1 jm
              then (s.indices.get ⟨k, hk⟩).2.queue ++ [newId s]
              else (s.indices.get ⟨k, hk⟩).2.queue⟩)
          rw [if_neg hmatch]
  have haddq_ge : ∀ x ∈ addQueue m (s.indices.get ⟨k, hk⟩) (newId s),
      s.buffer.start_index ≤ x := by
    intro x hx
    cases m with
    | Raw bm => exact hge x hx
    | Json jm =>
        simp only [addQueue] at hx
        by_cases hmatch : should_index (s.indices.get ⟨k, hk⟩).1 jm = true
        · rw [if_pos hmatch] at hx
          rcases List.mem_append.mp hx with hx | hx
          · exact hge x hx
          · have : x = newId s := by simpa using hx
            omega
        · rw [if_neg hmatch] at hx
          exact hge x hx
  have haddq_sorted : (addQueue m (s.indices.get ⟨k, hk⟩) (newId s)).Pairwise
      (· < ·) := by
    cases m with
    | Raw bm => exact hsorted
    | Json jm =>
        simp only [addQueue]
        by_cases hmatch : should_index (s.indices.get ⟨k, hk⟩).1 jm = true
        · rw [if_pos hmatch]
          rw [List.pairwise_append]
          exact ⟨hsorted, List.pairwise_singleton _ _,
            fun x hx y hy => by
              have : y = newId s := by simpa using hy
              rw [this]; exact hlt x hx⟩
        · rw [if_neg hmatch]
          exact hsorted
  have hmem_addq : ∀ x, x ∈ addQueue m (s.indices.get ⟨k, hk⟩) (newId s) ↔
      (x ∈ (s.indices.get ⟨k, hk⟩).2.queue ∨
        (x = newId s ∧ ∃ jm, m = .Json jm ∧
          should_index (s.indices.get ⟨k, hk⟩).1 jm = true)) := by
    intro x
    cases m with
    | Raw bm =>
        simp only [addQueue]
        constructor
        · exact fun h => Or.inl h
        · rintro (h | ⟨-, jm, hjm, -⟩)
          · exact h
          · exact absurd hjm (by simp)
    | Json jm =>
        simp only [addQueue]
        by_cases hmatch : should_index (s.indices.get ⟨k, hk⟩).1 jm = true
        · rw [if_pos hmatch, List.mem_append]
          constructor
          · rintro (h | h)
            · exact Or.inl h
            · exact Or.inr ⟨by simpa using h, jm, rfl, hmatch⟩
          · rintro (h | ⟨hx, -⟩)
            · exact Or.inl h
            · right; simpa using hx
        · rw [if_neg hmatch]
          constructor
          · exact fun h => Or.inl h
          · rintro (h | ⟨-, jm', hjm', hm'⟩)
            · exact h
            · have : jm' = jm := by
                injection hjm' with h1
                exact h1.symm
              rw [this] at hm'
              exact absurd hm' (by simpa using hmatch)
  have hstart_addq : s.buffer.start_index ∈
      addQueue m (s.indices.get ⟨k, hk⟩) (newId s) ↔
      s.buffer.start_index ∈ (s.indices.get ⟨k, hk⟩).2.queue := by
    rw [hmem_addq]
    constructor
    · rintro (h | ⟨hx, -⟩)
      · exact h
      · omega
    · exact fun h => Or.inl h
  have hentry_start : s.entryAt s.buffer.start_index = some old := by
    unfold Store.entryAt
    rw [Nat.sub_self, hd]
    simp
  have hstart_not_in_queue_of_raw : ∀ bo, old = .Raw bo →
      s.buffer.start_index ∉ (s.indices.get ⟨k, hk⟩).2.queue := by
    intro bo hbo hmem
    obtain ⟨-, je', hj', -⟩ := hInv.idx_mem _ hp _ hmem
    rw [hentry_start, hbo] at hj'
    exact absurd hj' (by simp)
  have hstart_not_in_queue_of_nomatch : ∀ je, old = .Json je →
      ¬ should_index (s.indices.get ⟨k, hk⟩).1 je = true →
      s.buffer.start_index ∉ (s.indices.get ⟨k, hk⟩).2.queue := by
    intro je hje hnm hmem
    obtain ⟨-, je', hj', hsi'⟩ := hInv.idx_mem _ hp _ hmem
    rw [hentry_start, hje] at hj'
    have : je = je' := by simpa using hj'
    rw [← this] at hsi'
    exact hnm hsi'
  cases old with
  | Raw bo =>
      have hfinal : (⟨⟨s.buffer.start_index + 1, s.buffer.bound, tl ++ [m]⟩,
          rawAfterRemove (rawAfterAdd s.raw_index m (newId s)) (.Raw bo),
          indicesAfterRemove (indicesAfterAdd s.indices m (newId s)) (.Raw bo)
            s.buffer.start_index⟩ : Store).indices.get ⟨k, hk'⟩ =
          ((s.indices.get ⟨k, hk⟩).1,
            (⟨addQueue m (s.indices.get ⟨k, hk⟩) (newId s)⟩ : Index)) := by
        show (indicesAfterAdd s.indices m (newId s)).get ⟨k, _⟩ = _
        rw [hAA]
      rw [hfinal]
      refine ⟨rfl, ?_, ?_, ?_⟩
      · intro hmem
        exact hstart_not_in_queue_of_raw bo rfl ((hstart_addq).mp hmem)
      · intro hmem
        exact absurd hmem (hstart_not_in_queue_of_raw bo rfl)
      · intro hmem
        rfl
  | Json je =>
      have hfinal : (⟨⟨s.buffer.start_index + 1, s.buffer.bound, tl ++ [m]⟩,
          rawAfterRemove (rawAfterAdd s.raw_index m (newId s)) (.Json je),
          indicesAfterRemove (indicesAfterAdd s.indices m (newId s)) (.Json je)
            s.buffer.start_index⟩ : Store).indices.get ⟨k, hk'⟩ =
          (if should_index (s.indices.get ⟨k, hk⟩).1 je
            then ((s.indices.get ⟨k, hk⟩).1,
              (⟨addQueue m (s.indices.get ⟨k, hk⟩) (newId s)⟩ : Index).removeHead
                s.buffer.start_index)
            else ((s.indices.get ⟨k, hk⟩).1,
              (⟨addQueue m (s.indices.get ⟨k, hk⟩) (newId s)⟩ : Index))) := by
        show (List.map _ (indicesAfterAdd s.indices m (newId s))).get ⟨k, _⟩ = _
        rw [List.get_map, hAA]
      rw [hfinal]
      by_cases hmatch : should_index (s.indices.get ⟨k, hk⟩).1 je = true
      · rw [if_pos hmatch]
        refine ⟨rfl, ?_, ?_, ?_⟩
        · exact not_mem_removeHead haddq_sorted haddq_ge
        · intro hmem
          have hmem' := hstart_addq.mpr hmem
          have hhead := head_eq_of_sorted_min haddq_sorted hmem' haddq_ge
          refine ⟨hhead, ?_⟩
          show (Index.removeHead _ _).queue = _
          unfold Index.removeHead
          rw [if_pos hhead]
        · intro hmem
          have hmem' : s.buffer.start_index ∉
              addQueue m (s.indices.get ⟨k, hk⟩) (newId s) :=
            fun h => hmem (hstart_addq.mp h)
          show (Index.removeHead _ _).queue = _
          unfold Index.removeHead
          rw [if_neg ?_]
          intro hhd
          exact hmem' (List.mem_of_mem_head? (by rw [hhd]; rfl))
      · rw [if_neg hmatch]
        refine ⟨rfl, ?_, ?_, ?_⟩
        · intro hmem
          exact hstart_not_in_queue_of_nomatch je rfl hmatch
            (hstart_addq.mp hmem)
        · intro hmem
          exact absurd hmem (hstart_not_in_queue_of_nomatch je rfl hmatch)
        · intro hmem
          rfl

/-- Closed instance of C5: with bound 1, register the match-everything
method (its condition list is empty — the only kind the compiled
matcher accepts), push a JSON entry (id 0, indexed), then push another
JSON entry: id 0 is evicted, and the index queue — `[0, 1]` after the
add phase, with the evicted id at the head — ends as `[1]`. -/
theorem C5_eviction_cleanup_witness :
    (⟨⟨1, 1, [.Json ⟨[]⟩]⟩, [], [(⟨[]⟩, ⟨[1]⟩)]⟩ : Store).indices.length =
      (⟨⟨0, 1, [.Json ⟨[]⟩]⟩, [], [(⟨[]⟩, ⟨[0]⟩)]⟩ : Store).indices.length ∧
    ((⟨[]⟩ : IndexMethod) = ⟨[]⟩ ∧
     (0 : ℕ) ∉ ([1] : List ℕ) ∧
     ((0 : ℕ) ∈ ([0] : List ℕ) →
        ([0, 1] : List ℕ).head? = some 0 ∧ ([1] : List ℕ) = [0, 1].tail) ∧
     ((0 : ℕ) ∉ ([0] : List ℕ) → ([1] : List ℕ) = [0, 1])) := by
  have h := C5_eviction_cleanup ⟨1⟩ [.register ⟨[]⟩, .push (.Json ⟨[]⟩)]
    ⟨⟨0, 1, [.Json ⟨[]⟩]⟩, [], [(⟨[]⟩, ⟨[0]⟩)]⟩ (.Json ⟨[]⟩)
    ⟨⟨1, 1, [.Json ⟨[]⟩]⟩, [], [(⟨[]⟩, ⟨[1]⟩)]⟩
    (by decide) rfl rfl rfl
  exact ⟨h.1, h.2 0 (by decide) (by decide)⟩

/-- C1: the compiled matcher rejects the spec's own examples.  All four
inputs below are ones the spec requires to MATCH, with the entry's
fields sorted ascending by name, yet `should_index` answers `false` on
each; indeed it answers `false` for every method with at least one
condition, because the inner loop of the Rust source has no `break`
(see `should_index_eq_isEmpty`). -/
theorem C1_matcher_rejects_spec_examples :
    should_index (IndexMethod.new [.HasKey "level".toList])
        ⟨[("level".toList, "info".toList)]⟩ = false ∧
    should_index (IndexMethod.new [.HasKey "level".toList])
        ⟨[("level".toList, "error".toList), ("msg".toList, "x".toList)]⟩ =
      false ∧
    should_index (IndexMethod.new [.KeyValue "level".toList "error".toList])
        ⟨[("level".toList, "error".toList)]⟩ = false ∧
    should_index
        (IndexMethod.new [.HasKey "a".toList, .KeyValue "b".toList "2".toList])
        ⟨[("a".toList, "1".toList), ("b".toList, "2".toList),
          ("c".toList, "3".toList)]⟩ = false :=
  ⟨by decide, by decide, by decide, by decide⟩

end Slv
